import Mathlib

/-!
# Backtracking Sudoku solver (`src/main.go`): embedding and verification

The Go program keeps the puzzle in `type puzzle [][]int`, a 9×9 matrix that
`solve` mutates in place while `validate` checks the row, the column and the
3×3 box of the cell that was just written.  `wasmUpdateDOM` is the observation
hook: it reads `p[row][col]` and shows it.

Embedding.  A puzzle is a total 9×9 matrix of integers.  Cell values are only
compared, never used in arithmetic, so Go's `int` is modelled by `Int`.  The
in-place mutation is explicit state passing: every function returns the puzzle
it leaves behind together with the chronological list of the events it
performed (cell writes, hook calls, recursive `solve` calls).  The recursion of
`solve` is indexed by a depth budget; `solve` itself runs with budget 82, one
more than the number of cells, and `none` is returned only if the budget is
exhausted.  `solveWF` is the same method by well-founded recursion on the
number of empty cells, and `solve_terminates` shows that the two agree and
always return.
-/

namespace Sudoku

/-- The Go type `puzzle`, restricted to the 9×9 shape that `solve` and
`validate` index. -/
abbrev puzzle := Fin 9 → Fin 9 → Int

/-- The assignment `p[row][col] = val`. -/
def puzzle.set (p : puzzle) (row col : Fin 9) (val : Int) : puzzle :=
  fun r c => if r = row ∧ c = col then val else p r c

/-- What `solve` does to the outside world, in the order it happens. -/
inductive Event where
  /-- The store `p[row][col] = val`. -/
  | write (row col : Fin 9) (val : Int)
  /-- The hook call `p.wasmUpdateDOM(row, col)`, with the puzzle it reads. -/
  | wasmUpdateDOM (p : puzzle) (row col : Fin 9)
  /-- The recursive call `p.solve()`, with the puzzle it is entered on. -/
  | solve (p : puzzle)

/-- The values of the loop counters `0, 1, ..., 8`. -/
def idx9 : List (Fin 9) := [0, 1, 2, 3, 4, 5, 6, 7, 8]

/-- The values of the box loop counters `0, 1, 2`. -/
def idx3 : List (Fin 3) := [0, 1, 2]

/-- The trial values `val := 1; val <= 9; val++`. -/
def digits : List Int := [1, 2, 3, 4, 5, 6, 7, 8, 9]

/-- The index `startRow + i` where `startRow := row - row%3` (same for columns). -/
def boxIndex (x : Fin 9) (i : Fin 3) : Fin 9 :=
  ⟨x.val - x.val % 3 + i.val, by omega⟩

/-- One duplicate scan of `validate`.  `seen` lists the keys of the Go map
`seen` that are set to `true`; the scan fails at the first nonzero value that
is already a key, and otherwise records the value (zero included). -/
def scan (seen : List Int) : List Int → Bool
  | [] => true
  | val :: rest => if val ≠ 0 ∧ val ∈ seen then false else scan (val :: seen) rest

/-- The values `p[row][i]`, `i = 0..8`, in the order the row scan reads them. -/
def rowVals (p : puzzle) (row : Fin 9) : List Int :=
  idx9.map (fun i => p row i)

/-- The values `p[i][col]`, `i = 0..8`, in the order the column scan reads them. -/
def colVals (p : puzzle) (col : Fin 9) : List Int :=
  idx9.map (fun i => p i col)

/-- The values `p[startRow+i][startCol+j]` in the order the box scan reads them. -/
def boxVals (p : puzzle) (row col : Fin 9) : List Int :=
  idx3.flatMap (fun i => idx3.map (fun j => p (boxIndex row i) (boxIndex col j)))

/-- The Go method `validate`: three scans, each with a fresh `seen` map, and
`false` as soon as one of them finds a repeated nonzero value. -/
def validate (p : puzzle) (row col : Fin 9) : Bool :=
  if scan [] (rowVals p row) = false then false
  else if scan [] (colVals p col) = false then false
  else if scan [] (boxVals p row col) = false then false
  else true

/-- What a call of `solve` yields: the returned boolean, the puzzle left
behind and the events performed. -/
abbrev Outcome := Bool × puzzle × List Event

/-- What a loop of `solve` yields: `some b` when the function returned `b` from
inside the loop, `none` when the loop ran to its end. -/
abbrev LoopOutcome := Option Bool × puzzle × List Event

/-- The loop `for val := 1; val <= 9; val++` of `solve` at the cell
`(row, col)`, run on the remaining trial values.  `rec` is the recursive call
`p.solve()`. -/
def valLoop (rec : puzzle → Option Outcome) (row col : Fin 9) :
    List Int → puzzle → Option LoopOutcome
  | [], p => some (none, p, [])
  | val :: vals, p =>
    -- p[row][col] = val; p.wasmUpdateDOM(row, col)
    let p1 := p.set row col val
    let t1 := [Event.write row col val, Event.wasmUpdateDOM p1 row col]
    if validate p1 row col then
      -- isSolved := p.solve()
      match rec p1 with
      | none => none
      | some (true, p2, t2) => some (some true, p2, t1 ++ Event.solve p1 :: t2)
      | some (false, p2, t2) =>
        -- p[row][col] = 0, then the next value
        match valLoop rec row col vals (p2.set row col 0) with
        | none => none
        | some (r, p3, t3) =>
          some (r, p3, t1 ++ Event.solve p1 :: t2 ++ Event.write row col 0 :: t3)
    else
      -- p[row][col] = 0, then the next value
      match valLoop rec row col vals (p1.set row col 0) with
      | none => none
      | some (r, p3, t3) => some (r, p3, t1 ++ Event.write row col 0 :: t3)

/-- The loop `for col := 0; col < 9; col++` of `solve` in row `row`, run on the
remaining column indices. -/
def colLoop (rec : puzzle → Option Outcome) (row : Fin 9) :
    List (Fin 9) → puzzle → Option LoopOutcome
  | [], p => some (none, p, [])
  | col :: cols, p =>
    -- if p[row][col] == 0 { for val ... }
    match (if p row col = 0 then valLoop rec row col digits p else some (none, p, [])) with
    | none => none
    | some (some b, p1, t1) => some (some b, p1, t1)
    | some (none, p1, t1) =>
      -- if p[row][col] == 0 { p.wasmUpdateDOM(row, col); return false }
      if p1 row col = 0 then
        some (some false, p1, t1 ++ [Event.wasmUpdateDOM p1 row col])
      else
        match colLoop rec row cols p1 with
        | none => none
        | some (r, p2, t2) => some (r, p2, t1 ++ t2)

/-- The loop `for row := 0; row < 9; row++` of `solve`, run on the remaining
row indices. -/
def rowLoop (rec : puzzle → Option Outcome) :
    List (Fin 9) → puzzle → Option LoopOutcome
  | [], p => some (none, p, [])
  | row :: rows, p =>
    match colLoop rec row idx9 p with
    | none => none
    | some (some b, p1, t1) => some (some b, p1, t1)
    | some (none, p1, t1) =>
      match rowLoop rec rows p1 with
      | none => none
      | some (r, p2, t2) => some (r, p2, t1 ++ t2)

/-- The body of the Go method `solve`, with its recursive call abstracted as
`rec`: the two nested loops and the final `return true`. -/
def solveBody (rec : puzzle → Option Outcome) (p : puzzle) : Option Outcome :=
  match rowLoop rec idx9 p with
  | none => none
  | some (some b, p1, t1) => some (b, p1, t1)
  | some (none, p1, t1) => some (true, p1, t1)

/-- The method `solve` with at most `depth` nested activations. -/
def solveFuel : Nat → puzzle → Option Outcome
  | 0, _ => none
  | depth + 1, p => solveBody (solveFuel depth) p

/-- The Go method `solve`.  A 9×9 puzzle has 81 cells and every nested
activation runs on a puzzle with one more filled cell, so 82 activations are
always enough (`solve_total`). -/
def solve (p : puzzle) : Option Outcome :=
  solveFuel 82 p

/-- The activation of `solve` whose scan stops at the empty cell `(row, col)`:
the trial loop there, then either the `return true` from inside it or the
hook call and `return false` after it. -/
def frame (rec : puzzle → Option Outcome) (row col : Fin 9) (p : puzzle) : Option Outcome :=
  match valLoop rec row col digits p with
  | none => none
  | some (some b, p1, t1) => some (b, p1, t1)
  | some (none, p1, t1) => some (false, p1, t1 ++ [Event.wasmUpdateDOM p1 row col])

/-! ## Vocabulary of the specification -/

/-- The cell `(row, col)` is the first empty cell in row-major order. -/
def FirstEmpty (p : puzzle) (row col : Fin 9) : Prop :=
  p row col = 0 ∧ ∀ r c : Fin 9, (r < row ∨ (r = row ∧ c < col)) → p r c ≠ 0

/-- Row `row` holds the same nonzero value in two different cells. -/
def rowDup (p : puzzle) (row : Fin 9) : Prop :=
  ∃ i j : Fin 9, i ≠ j ∧ p row i ≠ 0 ∧ p row i = p row j

/-- Column `col` holds the same nonzero value in two different cells. -/
def colDup (p : puzzle) (col : Fin 9) : Prop :=
  ∃ i j : Fin 9, i ≠ j ∧ p i col ≠ 0 ∧ p i col = p j col

/-- The 3×3 box anchored at `(row - row % 3, col - col % 3)` holds the same
nonzero value in two different cells. -/
def boxDup (p : puzzle) (row col : Fin 9) : Prop :=
  ∃ i j k l : Fin 3, (i, j) ≠ (k, l) ∧ p (boxIndex row i) (boxIndex col j) ≠ 0 ∧
    p (boxIndex row i) (boxIndex col j) = p (boxIndex row k) (boxIndex col l)

/-- Rule-consistent: no row, column or box holds the same nonzero value twice.
As `(row, col)` ranges over all cells, the boxes anchored at
`(row - row % 3, col - col % 3)` are the nine boxes. -/
def consistent (p : puzzle) : Prop :=
  (∀ row, ¬ rowDup p row) ∧ (∀ col, ¬ colDup p col) ∧ (∀ row col, ¬ boxDup p row col)

/-- Every entry lies in `0..9`. -/
def inRange (p : puzzle) : Prop :=
  ∀ r c : Fin 9, 0 ≤ p r c ∧ p r c ≤ 9

/-- Every row, every column and every 3×3 box contains each digit `1..9`
exactly once. -/
def fullyValid (p : puzzle) : Prop :=
  ∀ d ∈ digits, (∀ row, (rowVals p row).count d = 1) ∧ (∀ col, (colVals p col).count d = 1) ∧
    (∀ row col, (boxVals p row col).count d = 1)

/-- The grid `s` is a legal completion of `p`: it agrees with `p` on the
nonzero cells of `p` and is fully valid. -/
def completes (s p : puzzle) : Prop :=
  (∀ r c : Fin 9, p r c ≠ 0 → s r c = p r c) ∧ fullyValid s

/-- Number of empty cells. -/
def emptyCount (p : puzzle) : Nat :=
  (Finset.univ.filter (fun x : Fin 9 × Fin 9 => p x.1 x.2 = 0)).card

/-- Build a puzzle from nine rows of nine numbers (missing entries read 0). -/
def ofRows (rows : List (List Int)) : puzzle :=
  fun r c => (rows.getD r.val []).getD c.val 0

/-! ## Notions used in the proofs -/

/-- The outcome of a call, seen as the outcome of a loop that returned from inside. -/
def liftFrame (o : Option Outcome) : Option LoopOutcome :=
  o.map (fun x => (some x.1, x.2.1, x.2.2))

/-- The recursive call restores the puzzle whenever it returns `false`. -/
def Restores (rec : puzzle → Option Outcome) : Prop :=
  ∀ (q : puzzle) (b : Bool) (q1 : puzzle) (t : List Event),
    rec q = some (b, q1, t) → b = false → q1 = q

/-- The trial of value `v` at the empty cell `(row, col)` of `p` does not
succeed: the validator rejects it or the recursive call returns `false`. -/
def TrialFails (rec : puzzle → Option Outcome) (p : puzzle) (row col : Fin 9) (v : Int) : Prop :=
  validate (p.set row col v) row col = false ∨
    ∃ t, rec (p.set row col v) = some (false, p.set row col v, t)

/-- The events of the trial of value `v` at the cell `(row, col)` of `p`, up to
and including the recursive call when the validator accepts the value. -/
def trialTrace (rec : puzzle → Option Outcome) (p : puzzle) (row col : Fin 9) (v : Int) :
    List Event :=
  [Event.write row col v, Event.wasmUpdateDOM (p.set row col v) row col] ++
    (if validate (p.set row col v) row col then
      Event.solve (p.set row col v) ::
        (match rec (p.set row col v) with
         | some o => o.2.2
         | none => [])
     else [])

/-- The events of a failed trial of `v` followed by the reset of the cell. -/
def failedTrace (rec : puzzle → Option Outcome) (p : puzzle) (row col : Fin 9) (v : Int) :
    List Event :=
  trialTrace rec p row col v ++ [Event.write row col 0]

/-- The index pairs of the box scan, in scan order. -/
def pairs3 : List (Fin 3 × Fin 3) :=
  idx3.flatMap (fun i => idx3.map (fun j => (i, j)))

/-- A cell coordinate `(row, col)`. -/
abbrev Cell := Fin 9 × Fin 9

/-- The cells of row `row`, in scan order. -/
def rowCells (row : Fin 9) : List Cell := idx9.map (fun i => (row, i))

/-- The cells of column `col`, in scan order. -/
def colCells (col : Fin 9) : List Cell := idx9.map (fun i => (i, col))

/-- The cells of the box that `validate` scans for `(row, col)`, in scan order. -/
def boxCells (row col : Fin 9) : List Cell :=
  pairs3.map (fun x => (boxIndex row x.1, boxIndex col x.2))

/-- The values a puzzle holds on a list of cells. -/
def valsOn (p : puzzle) (u : List Cell) : List Int := u.map (fun x => p x.1 x.2)

/-- No nonzero value is held by two different cells of `u`. -/
def NoDup (p : puzzle) (u : List Cell) : Prop :=
  ∀ x ∈ u, ∀ y ∈ u, p x.1 x.2 ≠ 0 → p x.1 x.2 = p y.1 y.2 → x = y

/-- The list `u` is a row, a column or a box. -/
def IsUnit (u : List Cell) : Prop :=
  (∃ row, u = rowCells row) ∨ (∃ col, u = colCells col) ∨ (∃ row col, u = boxCells row col)

/-- Row-major order on cell coordinates: `(r1, c1)` comes before `(r, c)`. -/
def before (r1 c1 r c : Fin 9) : Prop := r1 < r ∨ (r1 = r ∧ c1 < c)

/-! ## Concrete grids -/

/-- A complete, fully valid grid. -/
def solvedGrid : puzzle := ofRows
  [[5, 3, 4, 6, 7, 8, 9, 1, 2],
   [6, 7, 2, 1, 9, 5, 3, 4, 8],
   [1, 9, 8, 3, 4, 2, 5, 6, 7],
   [8, 5, 9, 7, 6, 1, 4, 2, 3],
   [4, 2, 6, 8, 5, 3, 7, 9, 1],
   [7, 1, 3, 9, 2, 4, 8, 5, 6],
   [9, 6, 1, 5, 3, 7, 2, 8, 4],
   [2, 8, 7, 4, 1, 9, 6, 3, 5],
   [3, 4, 5, 2, 8, 6, 1, 7, 9]]

/-- The grid `solvedGrid` with its first cell emptied. -/
def oneMissing : puzzle := ofRows
  [[0, 3, 4, 6, 7, 8, 9, 1, 2],
   [6, 7, 2, 1, 9, 5, 3, 4, 8],
   [1, 9, 8, 3, 4, 2, 5, 6, 7],
   [8, 5, 9, 7, 6, 1, 4, 2, 3],
   [4, 2, 6, 8, 5, 3, 7, 9, 1],
   [7, 1, 3, 9, 2, 4, 8, 5, 6],
   [9, 6, 1, 5, 3, 7, 2, 8, 4],
   [2, 8, 7, 4, 1, 9, 6, 3, 5],
   [3, 4, 5, 2, 8, 6, 1, 7, 9]]

/-- A rule-consistent grid without completion: the first cell sees `1..8` in
its row and `9` in its column. -/
def deadEnd : puzzle := ofRows
  [[0, 1, 2, 3, 4, 5, 6, 7, 8],
   [9, 0, 0, 0, 0, 0, 0, 0, 0],
   [0, 0, 0, 0, 0, 0, 0, 0, 0],
   [0, 0, 0, 0, 0, 0, 0, 0, 0],
   [0, 0, 0, 0, 0, 0, 0, 0, 0],
   [0, 0, 0, 0, 0, 0, 0, 0, 0],
   [0, 0, 0, 0, 0, 0, 0, 0, 0],
   [0, 0, 0, 0, 0, 0, 0, 0, 0],
   [0, 0, 0, 0, 0, 0, 0, 0, 0]]

/-- The grid `solvedGrid` with the cells `(0,3)`, `(0,4)`, `(3,3)`, `(3,4)`
emptied; they hold `6 7 / 7 6` in `solvedGrid` and `7 6 / 6 7` completes the
grid as well. -/
def twoWays : puzzle := ofRows
  [[5, 3, 4, 0, 0, 8, 9, 1, 2],
   [6, 7, 2, 1, 9, 5, 3, 4, 8],
   [1, 9, 8, 3, 4, 2, 5, 6, 7],
   [8, 5, 9, 0, 0, 1, 4, 2, 3],
   [4, 2, 6, 8, 5, 3, 7, 9, 1],
   [7, 1, 3, 9, 2, 4, 8, 5, 6],
   [9, 6, 1, 5, 3, 7, 2, 8, 4],
   [2, 8, 7, 4, 1, 9, 6, 3, 5],
   [3, 4, 5, 2, 8, 6, 1, 7, 9]]

/-- The complete grid whose 81 cells all hold 1. -/
def allOnes : puzzle := fun _ _ => 1

instance (p : puzzle) : Decidable (inRange p) := by
  unfold inRange; infer_instance

instance (p : puzzle) : Decidable (fullyValid p) := by
  unfold fullyValid; infer_instance

instance (s p : puzzle) : Decidable (completes s p) := by
  unfold completes; infer_instance

/-! ## The hook discipline of an event list -/

/-- The event is a store into the puzzle. -/
def Event.isWrite : Event → Bool
  | .write _ _ _ => true
  | _ => false

/-- The event is a call of the observation hook. -/
def Event.isHook : Event → Bool
  | .wasmUpdateDOM _ _ _ => true
  | _ => false

/-- Number of stores in a list of events. -/
def writeCount (t : List Event) : Nat := t.countP Event.isWrite

/-- Number of hook calls in a list of events. -/
def hookCount (t : List Event) : Nat := t.countP Event.isHook

/-- What may come directly after an event.  After the store of a nonzero
value: the hook call for that cell, on the puzzle holding the value.  After a
reset to 0: the next trial store to the same cell, or the hook call for that
cell on the puzzle holding 0.  After anything else: no hook call. -/
def Follows (e e1 : Event) : Prop :=
  match e with
  | .write r c v =>
    if v = 0 then
      (∃ v1, v1 ≠ 0 ∧ e1 = .write r c v1) ∨ (∃ q : puzzle, q r c = 0 ∧ e1 = .wasmUpdateDOM q r c)
    else ∃ q : puzzle, q r c = v ∧ e1 = .wasmUpdateDOM q r c
  | _ => e1.isHook = false

/-- The hook discipline of a list of events: adjacent events obey `Follows`,
the list does not start with a hook call and does not end with a store, and it
holds at most as many hook calls as stores. -/
def Disciplined (t : List Event) : Prop :=
  List.Chain' Follows t ∧ (∀ e, t.head? = some e → e.isHook = false) ∧
    (∀ e, t.getLast? = some e → e.isWrite = false) ∧ hookCount t ≤ writeCount t

/-! ## Termination, observation and display -/

/-- The method `solve` by well-founded recursion on the number of empty cells,
without depth budget.  The recursive call is taken only on a puzzle with
strictly fewer empty cells than the puzzle of the calling activation; `none`
marks a recursive call that would not be. -/
def solveWF (p : puzzle) : Option Outcome :=
  solveBody (fun q => if _h : emptyCount q < emptyCount p then solveWF q else none) p
termination_by emptyCount p

/-- The grid whose 81 cells are all 0. -/
def emptyGrid : puzzle := fun _ _ => 0

/-- What the hook shows for the cell `(row, col)`: the value `p[row][col]` that
`wasmUpdateDOM` reads, for a hook call at `(row, col)`; nothing for any other
event. -/
def hookValueAt (row col : Fin 9) : Event → Option Int
  | .wasmUpdateDOM q r c => if r = row ∧ c = col then some (q r c) else none
  | _ => none

/-- The values the hook calls for the cell `(row, col)` show, in order. -/
def hookValuesAt (row col : Fin 9) (t : List Event) : List Int :=
  t.filterMap (hookValueAt row col)

/-- A grid with entries in `0..9` whose only filled cells are two 1s in row 8. -/
def farDup : puzzle := ofRows
  [[0, 0, 0, 0, 0, 0, 0, 0, 0],
   [0, 0, 0, 0, 0, 0, 0, 0, 0],
   [0, 0, 0, 0, 0, 0, 0, 0, 0],
   [0, 0, 0, 0, 0, 0, 0, 0, 0],
   [0, 0, 0, 0, 0, 0, 0, 0, 0],
   [0, 0, 0, 0, 0, 0, 0, 0, 0],
   [0, 0, 0, 0, 0, 0, 0, 0, 0],
   [0, 0, 0, 0, 0, 0, 0, 0, 0],
   [1, 0, 0, 0, 1, 0, 0, 0, 0]]

/-- The view of the presentation layer after a list of events, started from
the view `d`: a hook call `p.wasmUpdateDOM(row, col)` puts the value
`p[row][col]` it reads into the view's cell `(row, col)` (the empty text of an
empty cell is the value 0); other events leave the view alone. -/
def display (d : puzzle) : List Event → puzzle
  | [] => d
  | .wasmUpdateDOM q r c :: t => display (d.set r c (q r c)) t
  | .write _ _ _ :: t => display d t
  | .solve _ :: t => display d t

/-! ## Lemmas on the embedding -/

theorem set_same (p : puzzle) (row col : Fin 9) (v : Int) : (p.set row col v) row col = v := by
  simp [puzzle.set]

theorem set_other (p : puzzle) (row col r c : Fin 9) (v : Int) (h : ¬ (r = row ∧ c = col)) :
    (p.set row col v) r c = p r c := by
  simp [puzzle.set, h]

theorem set_set (p : puzzle) (row col : Fin 9) (v w : Int) :
    (p.set row col v).set row col w = p.set row col w := by
  funext r c
  by_cases h : r = row ∧ c = col <;> simp [puzzle.set, h]

theorem set_self (p : puzzle) (row col : Fin 9) (v : Int) (h : p row col = v) :
    p.set row col v = p := by
  funext r c
  by_cases h' : r = row ∧ c = col
  · obtain ⟨rfl, rfl⟩ := h'
    simp [puzzle.set, h]
  · simp [puzzle.set, h']

theorem set_reset (p : puzzle) (row col : Fin 9) (v : Int) (h : p row col = 0) :
    (p.set row col v).set row col 0 = p := by
  rw [set_set, set_self p row col 0 h]

theorem mem_idx9 (i : Fin 9) : i ∈ idx9 := by
  revert i; decide

theorem mem_idx3 (i : Fin 3) : i ∈ idx3 := by
  revert i; decide

theorem idx9_split (i : Fin 9) :
    idx9 = idx9.filter (fun j => j < i) ++ i :: idx9.filter (fun j => i < j) := by
  revert i; decide

/-- A trial loop that runs to its end leaves the cell empty. -/
theorem valLoop_fall_zero (rec : puzzle → Option Outcome) (row col : Fin 9) :
    ∀ (vals : List Int) (p p1 : puzzle) (t1 : List Event), p row col = 0 →
      valLoop rec row col vals p = some (none, p1, t1) → p1 row col = 0 := by
  intro vals
  induction vals with
  | nil =>
    intro p p1 t1 hp h
    simp only [valLoop, Option.some.injEq, Prod.mk.injEq] at h
    rw [← h.2.1]; exact hp
  | cons v vs ih =>
    intro p p1 t1 _ h
    simp only [valLoop] at h
    split at h
    · split at h
      · exact absurd h (by simp)
      · simp at h
      · rename_i p2 t2 _
        split at h
        · exact absurd h (by simp)
        · rename_i r p3 t3 hv
          simp only [Option.some.injEq, Prod.mk.injEq] at h
          obtain ⟨rfl, rfl, _⟩ := h
          exact ih _ _ _ (set_same _ _ _ _) hv
    · split at h
      · exact absurd h (by simp)
      · rename_i r p3 t3 hv
        simp only [Option.some.injEq, Prod.mk.injEq] at h
        obtain ⟨rfl, rfl, _⟩ := h
        exact ih _ _ _ (set_same _ _ _ _) hv

theorem colLoop_skip (rec : puzzle → Option Outcome) (row : Fin 9) (p : puzzle) :
    ∀ cols : List (Fin 9), (∀ c ∈ cols, p row c ≠ 0) →
      colLoop rec row cols p = some (none, p, []) := by
  intro cols
  induction cols with
  | nil => intro _; rfl
  | cons c cs ih =>
    intro h
    have hc : p row c ≠ 0 := h c (List.mem_cons_self _ _)
    simp only [colLoop, hc, if_false]
    rw [ih (fun c' hc' => h c' (List.mem_cons_of_mem _ hc'))]
    rfl

theorem colLoop_hit (rec : puzzle → Option Outcome) (row col : Fin 9) (p : puzzle)
    (hp : p row col = 0) :
    ∀ (pre post : List (Fin 9)), (∀ c ∈ pre, p row c ≠ 0) →
      colLoop rec row (pre ++ col :: post) p = liftFrame (frame rec row col p) := by
  intro pre
  induction pre with
  | nil =>
    intro post _
    simp only [List.nil_append, colLoop, hp, if_true, frame, liftFrame]
    cases hv : valLoop rec row col digits p with
    | none => rfl
    | some lo =>
      obtain ⟨r, p1, t1⟩ := lo
      cases r with
      | some b => rfl
      | none =>
        have hz := valLoop_fall_zero rec row col digits p p1 t1 hp hv
        simp [hz]
  | cons c cs ih =>
    intro post h
    have hc : p row c ≠ 0 := h c (List.mem_cons_self _ _)
    simp only [List.cons_append, colLoop, hc, if_false, List.append_eq]
    rw [ih post (fun c' hc' => h c' (List.mem_cons_of_mem _ hc'))]
    cases hf : frame rec row col p with
    | none => rfl
    | some o => simp [liftFrame]

theorem rowLoop_skip (rec : puzzle → Option Outcome) (p : puzzle) :
    ∀ rows : List (Fin 9), (∀ r ∈ rows, ∀ c, p r c ≠ 0) →
      rowLoop rec rows p = some (none, p, []) := by
  intro rows
  induction rows with
  | nil => intro _; rfl
  | cons r rs ih =>
    intro h
    simp only [rowLoop]
    rw [colLoop_skip rec r p idx9 (fun c _ => h r (List.mem_cons_self _ _) c)]
    simp only
    rw [ih (fun r' hr' => h r' (List.mem_cons_of_mem _ hr'))]
    rfl

theorem rowLoop_hit (rec : puzzle → Option Outcome) (row col : Fin 9) (p : puzzle)
    (hp : FirstEmpty p row col) :
    ∀ (pre post : List (Fin 9)), (∀ r ∈ pre, r < row) →
      rowLoop rec (pre ++ row :: post) p = liftFrame (frame rec row col p) := by
  intro pre
  induction pre with
  | nil =>
    intro post _
    simp only [List.nil_append, rowLoop]
    have hsplit := idx9_split col
    rw [hsplit, colLoop_hit rec row col p hp.1]
    · cases hf : frame rec row col p with
      | none => rfl
      | some o => simp [liftFrame]
    · intro c hc
      have : c < col := by simpa using (List.mem_filter.1 hc).2
      exact hp.2 row c (Or.inr ⟨rfl, this⟩)
  | cons r rs ih =>
    intro post h
    have hr : r < row := h r (List.mem_cons_self _ _)
    simp only [List.cons_append, rowLoop, List.append_eq]
    rw [colLoop_skip rec r p idx9 (fun c _ => hp.2 r c (Or.inl hr))]
    simp only
    rw [ih post (fun r' hr' => h r' (List.mem_cons_of_mem _ hr'))]
    cases hf : frame rec row col p with
    | none => rfl
    | some o => simp [liftFrame]

/-- A call on a puzzle without empty cell returns `true` at once. -/
theorem solveBody_full (rec : puzzle → Option Outcome) (p : puzzle)
    (h : ∀ r c, p r c ≠ 0) : solveBody rec p = some (true, p, []) := by
  simp only [solveBody]
  rw [rowLoop_skip rec p idx9 (fun r _ c => h r c)]

/-- A call on a puzzle whose first empty cell is `(row, col)` is the frame at that cell. -/
theorem solveBody_frame (rec : puzzle → Option Outcome) (p : puzzle) (row col : Fin 9)
    (h : FirstEmpty p row col) : solveBody rec p = frame rec row col p := by
  simp only [solveBody]
  rw [idx9_split row, rowLoop_hit rec row col p h]
  · cases hf : frame rec row col p with
    | none => rfl
    | some o => obtain ⟨b, p1, t1⟩ := o; simp [liftFrame]
  · intro r hr
    simpa using (List.mem_filter.1 hr).2

/-- Either no cell is empty or there is a first empty cell in row-major order. -/
theorem full_or_firstEmpty (p : puzzle) :
    (∀ r c, p r c ≠ 0) ∨ ∃ row col, FirstEmpty p row col := by
  by_cases h : ∀ r c, p r c ≠ 0
  · exact Or.inl h
  · right
    push_neg at h
    obtain ⟨r0, c0, h0⟩ := h
    have hex : ∃ n : Nat, ∃ r c : Fin 9, 9 * r.val + c.val = n ∧ p r c = 0 :=
      ⟨_, r0, c0, rfl, h0⟩
    obtain ⟨row, col, hn, hz⟩ := Nat.find_spec hex
    refine ⟨row, col, hz, ?_⟩
    intro r c hlt hrc
    have hmin := Nat.find_min hex (m := 9 * r.val + c.val)
    have : 9 * r.val + c.val < Nat.find hex := by
      rw [← hn]
      rcases hlt with h1 | ⟨h1, h2⟩
      · have : r.val < row.val := h1
        have := c.isLt
        omega
      · have : c.val < col.val := h2
        subst h1
        omega
    exact hmin this ⟨r, c, rfl, by simpa using hrc⟩

/-- A trial loop at an empty cell, over a recursive call that restores the
puzzle on failure: either every value fails and the loop ends on the puzzle it
started from, or the values before some `v` fail and the trial of `v` returns
`true`.  In both cases the events are the trials in order. -/
theorem valLoop_spec (rec : puzzle → Option Outcome) (hrec : Restores rec)
    (row col : Fin 9) (p : puzzle) (hp : p row col = 0) :
    ∀ (vals : List Int) (lo : LoopOutcome), valLoop rec row col vals p = some lo →
      (lo.1 = none ∧ lo.2.1 = p ∧ (∀ v ∈ vals, TrialFails rec p row col v) ∧
        lo.2.2 = vals.flatMap (failedTrace rec p row col)) ∨
      (lo.1 = some true ∧ ∃ pre v post, vals = pre ++ v :: post ∧
        (∀ u ∈ pre, TrialFails rec p row col u) ∧
        validate (p.set row col v) row col = true ∧
        (∃ t, rec (p.set row col v) = some (true, lo.2.1, t)) ∧
        lo.2.2 = pre.flatMap (failedTrace rec p row col) ++ trialTrace rec p row col v) := by
  intro vals
  induction vals with
  | nil =>
    intro lo h
    simp only [valLoop, Option.some.injEq] at h
    subst h
    left
    simp
  | cons v vs ih =>
    intro lo h
    simp only [valLoop] at h
    by_cases hv : validate (p.set row col v) row col = true
    · simp only [hv, if_true] at h
      cases hr : rec (p.set row col v) with
      | none => simp [hr] at h
      | some o =>
        obtain ⟨b, p2, t2⟩ := o
        cases b with
        | true =>
          simp only [hr, Option.some.injEq] at h
          subst h
          right
          refine ⟨rfl, [], v, vs, rfl, by simp, hv, ⟨t2, hr⟩, ?_⟩
          simp [trialTrace, hv, hr]
        | false =>
          have hp2 : p2 = p.set row col v := hrec _ _ _ _ hr rfl
          subst hp2
          simp only [hr, set_reset p row col v hp] at h
          cases hl : valLoop rec row col vs p with
          | none => simp [hl] at h
          | some lo1 =>
            obtain ⟨r, p3, t3⟩ := lo1
            simp only [hl, Option.some.injEq] at h
            subst h
            have hfail : TrialFails rec p row col v := Or.inr ⟨t2, hr⟩
            have htr : failedTrace rec p row col v =
                [Event.write row col v, Event.wasmUpdateDOM (p.set row col v) row col] ++
                  Event.solve (p.set row col v) :: t2 ++ [Event.write row col 0] := by
              simp [failedTrace, trialTrace, hv, hr]
            rcases ih _ hl with ⟨h1, h2, h3, h4⟩ | ⟨h1, pre, w, post, h2, h3, h4, h5, h6⟩
            · left
              refine ⟨h1, h2, ?_, ?_⟩
              · intro u hu
                rcases List.mem_cons.1 hu with rfl | hu
                · exact hfail
                · exact h3 u hu
              · simp only at h4
                simp only [List.flatMap_cons, htr, h4]
                simp
            · right
              refine ⟨h1, v :: pre, w, post, by simp [h2], ?_, h4, h5, ?_⟩
              · intro u hu
                rcases List.mem_cons.1 hu with rfl | hu
                · exact hfail
                · exact h3 u hu
              · simp only at h6
                simp only [List.flatMap_cons, htr, h6]
                simp
    · have hv' : validate (p.set row col v) row col = false := by simpa using hv
      simp only [hv', set_reset p row col v hp] at h
      cases hl : valLoop rec row col vs p with
      | none => simp [hl] at h
      | some lo1 =>
        obtain ⟨r, p3, t3⟩ := lo1
        simp only [hl] at h
        simp only [Bool.false_eq_true, if_false, Option.some.injEq] at h
        subst h
        have hfail : TrialFails rec p row col v := Or.inl hv'
        have htr : failedTrace rec p row col v =
            [Event.write row col v, Event.wasmUpdateDOM (p.set row col v) row col,
              Event.write row col 0] := by
          simp [failedTrace, trialTrace, hv']
        rcases ih _ hl with ⟨h1, h2, h3, h4⟩ | ⟨h1, pre, w, post, h2, h3, h4, h5, h6⟩
        · left
          refine ⟨h1, h2, ?_, ?_⟩
          · intro u hu
            rcases List.mem_cons.1 hu with rfl | hu
            · exact hfail
            · exact h3 u hu
          · simp only at h4
            simp only [List.flatMap_cons, htr, h4]
            simp
        · right
          refine ⟨h1, v :: pre, w, post, by simp [h2], ?_, h4, h5, ?_⟩
          · intro u hu
            rcases List.mem_cons.1 hu with rfl | hu
            · exact hfail
            · exact h3 u hu
          · simp only at h6
            simp only [List.flatMap_cons, htr, h6]
            simp

/-- A trial loop at an empty cell returns as soon as the recursive call does
on every value the validator accepts. -/
theorem valLoop_total (rec : puzzle → Option Outcome) (hrec : Restores rec)
    (row col : Fin 9) (p : puzzle) (hp : p row col = 0) :
    ∀ vals : List Int,
      (∀ v ∈ vals, validate (p.set row col v) row col = true →
        ∃ o, rec (p.set row col v) = some o) →
      ∃ lo, valLoop rec row col vals p = some lo := by
  intro vals
  induction vals with
  | nil => intro _; exact ⟨_, rfl⟩
  | cons v vs ih =>
    intro h
    obtain ⟨lo, hlo⟩ := ih (fun u hu => h u (List.mem_cons_of_mem _ hu))
    simp only [valLoop]
    by_cases hv : validate (p.set row col v) row col = true
    · obtain ⟨o, ho⟩ := h v (List.mem_cons_self _ _) hv
      obtain ⟨b, p2, t2⟩ := o
      cases b with
      | true => simp [hv, ho]
      | false =>
        have hp2 : p2 = p.set row col v := hrec _ _ _ _ ho rfl
        subst hp2
        simp [hv, ho, set_reset p row col v hp, hlo]
    · have hv' : validate (p.set row col v) row col = false := by simpa using hv
      simp [hv', set_reset p row col v hp, hlo]

/-- More budget for the recursive call never changes an outcome: trial loop. -/
theorem valLoop_mono (rec rec1 : puzzle → Option Outcome)
    (hle : ∀ q o, rec q = some o → rec1 q = some o) (row col : Fin 9) :
    ∀ (vals : List Int) (p : puzzle) (lo : LoopOutcome),
      valLoop rec row col vals p = some lo → valLoop rec1 row col vals p = some lo := by
  intro vals
  induction vals with
  | nil => intro p lo h; simpa [valLoop] using h
  | cons v vs ih =>
    intro p lo h
    simp only [valLoop] at h ⊢
    by_cases hv : validate (p.set row col v) row col = true
    · simp only [hv, if_true] at h ⊢
      cases hr : rec (p.set row col v) with
      | none => simp [hr] at h
      | some o =>
        rw [hle _ _ hr]
        obtain ⟨b, p2, t2⟩ := o
        cases b with
        | true => simpa [hr] using h
        | false =>
          simp only [hr] at h ⊢
          cases hl : valLoop rec row col vs (p2.set row col 0) with
          | none => simp [hl] at h
          | some lo1 =>
            rw [ih _ _ hl]
            simpa [hl] using h
    · have hv' : validate (p.set row col v) row col = false := by simpa using hv
      simp only [hv', Bool.false_eq_true, if_false] at h ⊢
      cases hl : valLoop rec row col vs ((p.set row col v).set row col 0) with
      | none => simp [hl] at h
      | some lo1 =>
        rw [ih _ _ hl]
        simpa [hl] using h

theorem colLoop_mono (rec rec1 : puzzle → Option Outcome)
    (hle : ∀ q o, rec q = some o → rec1 q = some o) (row : Fin 9) :
    ∀ (cols : List (Fin 9)) (p : puzzle) (lo : LoopOutcome),
      colLoop rec row cols p = some lo → colLoop rec1 row cols p = some lo := by
  intro cols
  induction cols with
  | nil => intro p lo h; simpa [colLoop] using h
  | cons c cs ih =>
    intro p lo h
    simp only [colLoop] at h ⊢
    by_cases hc : p row c = 0
    · simp only [hc, if_true] at h ⊢
      cases hv : valLoop rec row c digits p with
      | none => simp [hv] at h
      | some lo1 =>
        rw [valLoop_mono rec rec1 hle row c digits p lo1 hv]
        obtain ⟨r, p1, t1⟩ := lo1
        cases r with
        | some b => simpa [hv] using h
        | none =>
          simp only [hv] at h ⊢
          by_cases hz : p1 row c = 0
          · simpa [hz] using h
          · simp only [hz, if_false] at h ⊢
            cases hl : colLoop rec row cs p1 with
            | none => simp [hl] at h
            | some lo2 =>
              rw [ih _ _ hl]
              simpa [hl] using h
    · simp only [hc, if_false] at h ⊢
      cases hl : colLoop rec row cs p with
      | none => simp [hl] at h
      | some lo2 =>
        rw [ih _ _ hl]
        simpa [hl] using h

theorem rowLoop_mono (rec rec1 : puzzle → Option Outcome)
    (hle : ∀ q o, rec q = some o → rec1 q = some o) :
    ∀ (rows : List (Fin 9)) (p : puzzle) (lo : LoopOutcome),
      rowLoop rec rows p = some lo → rowLoop rec1 rows p = some lo := by
  intro rows
  induction rows with
  | nil => intro p lo h; simpa [rowLoop] using h
  | cons r rs ih =>
    intro p lo h
    simp only [rowLoop] at h ⊢
    cases hc : colLoop rec r idx9 p with
    | none => simp [hc] at h
    | some lo1 =>
      rw [colLoop_mono rec rec1 hle r idx9 p lo1 hc]
      obtain ⟨x, p1, t1⟩ := lo1
      cases x with
      | some b => simpa [hc] using h
      | none =>
        simp only [hc] at h ⊢
        cases hl : rowLoop rec rs p1 with
        | none => simp [hl] at h
        | some lo2 =>
          rw [ih _ _ hl]
          simpa [hl] using h

/-- An outcome reached within some budget is reached within every larger one. -/
theorem solveFuel_succ (n : Nat) :
    ∀ (p : puzzle) (o : Outcome), solveFuel n p = some o → solveFuel (n + 1) p = some o := by
  induction n with
  | zero => intro p o h; simp [solveFuel] at h
  | succ n ih =>
    intro p o h
    have e1 : solveFuel (n + 1) p = solveBody (solveFuel n) p := rfl
    have e2 : solveFuel (n + 1 + 1) p = solveBody (solveFuel (n + 1)) p := rfl
    rw [e1] at h
    rw [e2]
    simp only [solveBody] at h ⊢
    cases hl : rowLoop (solveFuel n) idx9 p with
    | none => simp [hl] at h
    | some lo =>
      rw [rowLoop_mono (solveFuel n) (solveFuel (n + 1)) ih idx9 p lo hl]
      simpa [hl] using h

theorem solveFuel_mono (n m : Nat) (hnm : n ≤ m) (p : puzzle) (o : Outcome)
    (h : solveFuel n p = some o) : solveFuel m p = some o := by
  induction m with
  | zero =>
    have : n = 0 := by omega
    subst this
    exact h
  | succ m ih =>
    by_cases hn : n = m + 1
    · subst hn; exact h
    · exact solveFuel_succ m p o (ih (by omega))

theorem emptyCount_le (p : puzzle) : emptyCount p ≤ 81 := by
  unfold emptyCount
  calc (Finset.univ.filter (fun x : Fin 9 × Fin 9 => p x.1 x.2 = 0)).card
      ≤ (Finset.univ : Finset (Fin 9 × Fin 9)).card := Finset.card_filter_le _ _
    _ = 81 := by simp

/-- Writing a nonzero value into an empty cell leaves one empty cell fewer. -/
theorem emptyCount_set (p : puzzle) (row col : Fin 9) (v : Int) (hp : p row col = 0)
    (hv : v ≠ 0) : emptyCount (p.set row col v) + 1 = emptyCount p := by
  unfold emptyCount
  have hmem : (row, col) ∈ Finset.univ.filter (fun x : Fin 9 × Fin 9 => p x.1 x.2 = 0) := by
    simp [hp]
  have heq : Finset.univ.filter (fun x : Fin 9 × Fin 9 => (p.set row col v) x.1 x.2 = 0) =
      (Finset.univ.filter (fun x : Fin 9 × Fin 9 => p x.1 x.2 = 0)).erase (row, col) := by
    ext ⟨r, c⟩
    simp only [Finset.mem_filter, Finset.mem_univ, true_and, Finset.mem_erase, ne_eq,
      Prod.mk.injEq]
    by_cases h : r = row ∧ c = col
    · obtain ⟨rfl, rfl⟩ := h
      simp [set_same, hv]
    · simp [set_other _ _ _ _ _ _ h, h]
  rw [heq, Finset.card_erase_of_mem hmem]
  have : 0 < (Finset.univ.filter (fun x : Fin 9 × Fin 9 => p x.1 x.2 = 0)).card :=
    Finset.card_pos.2 ⟨_, hmem⟩
  omega

theorem digits_ne_zero (v : Int) (hv : v ∈ digits) : v ≠ 0 := by
  intro h; subst h; revert hv; decide

theorem mem_digits (v : Int) : v ∈ digits ↔ 1 ≤ v ∧ v ≤ 9 := by
  constructor
  · intro h
    simp only [digits, List.mem_cons, List.mem_singleton, List.not_mem_nil, or_false] at h
    omega
  · intro ⟨h1, h2⟩
    simp only [digits, List.mem_cons, List.mem_singleton, List.not_mem_nil, or_false]
    omega

/-- A call that returns `false` leaves the puzzle as it found it. -/
theorem solveFuel_restores : ∀ n, Restores (solveFuel n) := by
  intro n
  induction n with
  | zero => intro q b q1 t h; simp [solveFuel] at h
  | succ n ih =>
    intro q b q1 t h hb
    subst hb
    have e : solveFuel (n + 1) q = solveBody (solveFuel n) q := rfl
    rw [e] at h
    rcases full_or_firstEmpty q with hfull | ⟨row, col, hfe⟩
    · rw [solveBody_full _ _ hfull] at h
      simp at h
    · rw [solveBody_frame _ _ _ _ hfe] at h
      simp only [frame] at h
      cases hl : valLoop (solveFuel n) row col digits q with
      | none => simp [hl] at h
      | some lo =>
        rcases valLoop_spec _ ih row col q hfe.1 digits lo hl with
          ⟨h1, h2, _, _⟩ | ⟨h1, _⟩
        · obtain ⟨r, p1, t1⟩ := lo
          simp only at h1 h2
          subst h1
          simp only [hl, Option.some.injEq, Prod.mk.injEq] at h
          rw [← h.2.1]; exact h2
        · obtain ⟨r, p1, t1⟩ := lo
          simp only at h1
          subst h1
          simp [hl] at h

/-- The shape of every activation of `solve`: the puzzle is full and the call
returns `true` at once, or the first empty cell is found and either all nine
trials fail (the call returns `false` on the puzzle it was given, after the
hook call for the emptied cell) or the trials before some digit fail and the
recursive call on that digit returns `true`. -/
theorem solveFuel_cases (n : Nat) (p : puzzle) (b : Bool) (p1 : puzzle) (t : List Event)
    (h : solveFuel (n + 1) p = some (b, p1, t)) :
    ((∀ r c, p r c ≠ 0) ∧ b = true ∧ p1 = p ∧ t = []) ∨
    ∃ row col, FirstEmpty p row col ∧
      ((b = false ∧ p1 = p ∧ (∀ v ∈ digits, TrialFails (solveFuel n) p row col v) ∧
          t = digits.flatMap (failedTrace (solveFuel n) p row col) ++
            [Event.wasmUpdateDOM p row col]) ∨
       (b = true ∧ ∃ pre v post, digits = pre ++ v :: post ∧
          (∀ u ∈ pre, TrialFails (solveFuel n) p row col u) ∧
          validate (p.set row col v) row col = true ∧
          (∃ t1, solveFuel n (p.set row col v) = some (true, p1, t1)) ∧
          t = pre.flatMap (failedTrace (solveFuel n) p row col) ++
            trialTrace (solveFuel n) p row col v)) := by
  have e : solveFuel (n + 1) p = solveBody (solveFuel n) p := rfl
  rw [e] at h
  rcases full_or_firstEmpty p with hfull | ⟨row, col, hfe⟩
  · left
    rw [solveBody_full _ _ hfull] at h
    simp only [Option.some.injEq, Prod.mk.injEq] at h
    exact ⟨hfull, h.1.symm, h.2.1.symm, h.2.2.symm⟩
  · right
    refine ⟨row, col, hfe, ?_⟩
    rw [solveBody_frame _ _ _ _ hfe] at h
    simp only [frame] at h
    cases hl : valLoop (solveFuel n) row col digits p with
    | none => simp [hl] at h
    | some lo =>
      rcases valLoop_spec _ (solveFuel_restores n) row col p hfe.1 digits lo hl with
        ⟨h1, h2, h3, h4⟩ | ⟨h1, pre, v, post, h2, h3, h4, h5, h6⟩
      · left
        obtain ⟨r, q, tq⟩ := lo
        simp only at h1 h2 h4
        subst h1 h2 h4
        simp only [hl, Option.some.injEq, Prod.mk.injEq] at h
        exact ⟨h.1.symm, h.2.1.symm, h3, h.2.2.symm⟩
      · right
        obtain ⟨r, q, tq⟩ := lo
        simp only at h1 h5 h6
        subst h1 h6
        simp only [hl, Option.some.injEq, Prod.mk.injEq] at h
        obtain ⟨rfl, rfl, rfl⟩ := h
        exact ⟨rfl, pre, v, post, h2, h3, h4, h5, rfl⟩

/-- With a budget above the number of empty cells the call returns. -/
theorem solveFuel_total : ∀ (n : Nat) (p : puzzle), emptyCount p < n →
    ∃ o, solveFuel n p = some o := by
  intro n
  induction n with
  | zero => intro p h; omega
  | succ n ih =>
    intro p h
    have e : solveFuel (n + 1) p = solveBody (solveFuel n) p := rfl
    rw [e]
    rcases full_or_firstEmpty p with hfull | ⟨row, col, hfe⟩
    · exact ⟨_, solveBody_full _ _ hfull⟩
    · rw [solveBody_frame _ _ _ _ hfe]
      have hloop := valLoop_total (solveFuel n) (solveFuel_restores n) row col p hfe.1 digits
        (fun v hv _ => ih _ (by
          have := emptyCount_set p row col v hfe.1 (digits_ne_zero v hv)
          omega))
      obtain ⟨lo, hlo⟩ := hloop
      obtain ⟨r, q, tq⟩ := lo
      simp only [frame, hlo]
      cases r with
      | some b => exact ⟨_, rfl⟩
      | none => exact ⟨_, rfl⟩

/-- The method `solve` returns on every 9×9 puzzle. -/
theorem solve_total (p : puzzle) : ∃ o, solve p = some o :=
  solveFuel_total 82 p (by have := emptyCount_le p; omega)

/-! ## The validator -/

/-- A scan succeeds exactly when no nonzero value of the list is a key of
`seen` and the nonzero values of the list are pairwise different. -/
theorem scan_iff : ∀ (l seen : List Int),
    scan seen l = true ↔ (∀ x ∈ l, x ≠ 0 → x ∉ seen) ∧ (l.filter (fun x => x ≠ 0)).Nodup := by
  intro l
  induction l with
  | nil => intro seen; simp [scan]
  | cons v rest ih =>
    intro seen
    by_cases hv : v = 0
    · subst hv
      have hf : (0 :: rest).filter (fun x : Int => x ≠ 0) = rest.filter (fun x => x ≠ 0) := by
        simp
      have hs : scan seen (0 :: rest) = scan (0 :: seen) rest := by simp [scan]
      rw [hf, hs, ih]
      constructor
      · rintro ⟨h1, h2⟩
        refine ⟨fun x hx hx0 hm => ?_, h2⟩
        rcases List.mem_cons.1 hx with h | h
        · exact hx0 h
        · exact h1 x h hx0 (List.mem_cons_of_mem _ hm)
      · rintro ⟨h1, h2⟩
        refine ⟨fun x hx hx0 hm => ?_, h2⟩
        rcases List.mem_cons.1 hm with h | h
        · exact hx0 h
        · exact h1 x (List.mem_cons_of_mem _ hx) hx0 h
    · have hf : (v :: rest).filter (fun x : Int => x ≠ 0) = v :: rest.filter (fun x => x ≠ 0) := by
        simp [hv]
      rw [hf, List.nodup_cons]
      by_cases hs : v ∈ seen
      · have hsc : scan seen (v :: rest) = false := by simp [scan, hv, hs]
        rw [hsc]
        constructor
        · intro h; exact absurd h (by simp)
        · rintro ⟨h1, _⟩
          exact absurd hs (h1 v (List.mem_cons_self _ _) hv)
      · have hsc : scan seen (v :: rest) = scan (v :: seen) rest := by simp [scan, hs]
        rw [hsc, ih]
        constructor
        · rintro ⟨h1, h2⟩
          refine ⟨fun x hx hx0 hm => ?_, ?_, h2⟩
          · rcases List.mem_cons.1 hx with h | h
            · subst h; exact hs hm
            · exact h1 x h hx0 (List.mem_cons_of_mem _ hm)
          · intro hm
            exact h1 v (List.mem_filter.1 hm).1 hv (List.mem_cons_self _ _)
        · rintro ⟨h1, h2, h3⟩
          refine ⟨fun x hx hx0 hm => ?_, h3⟩
          rcases List.mem_cons.1 hm with h | h
          · subst h
            exact h2 (List.mem_filter.2 ⟨hx, by simpa using hx0⟩)
          · exact h1 x (List.mem_cons_of_mem _ hx) hx0 h

/-- A scan over the values `f i` of pairwise different indices `i` succeeds
exactly when no nonzero value is taken at two different indices. -/
theorem scan_map_iff {ι : Type} (f : ι → Int) (is : List ι) (hnd : is.Nodup) :
    scan [] (is.map f) = true ↔
      ∀ i ∈ is, ∀ j ∈ is, f i ≠ 0 → f i = f j → i = j := by
  rw [scan_iff]
  simp only [List.not_mem_nil, not_false_eq_true, implies_true, true_and]
  rw [List.filter_map]
  rw [List.nodup_map_iff_inj_on (hnd.filter _)]
  simp only [List.mem_filter, Function.comp_apply, decide_eq_true_eq, and_imp]
  constructor
  · intro h i hi j hj h0 hij
    exact h i hi h0 j hj (by rw [← hij]; exact h0) hij
  · intro h i hi h0 j hj _ hij
    exact h i hi j hj h0 hij

theorem idx9_nodup : idx9.Nodup := by decide

theorem pairs3_nodup : pairs3.Nodup := by decide

theorem mem_pairs3 (x : Fin 3 × Fin 3) : x ∈ pairs3 := by
  revert x; decide

theorem boxVals_eq (p : puzzle) (row col : Fin 9) :
    boxVals p row col = pairs3.map (fun x => p (boxIndex row x.1) (boxIndex col x.2)) := rfl

theorem scan_row_iff (p : puzzle) (row : Fin 9) :
    scan [] (rowVals p row) = true ↔ ¬ rowDup p row := by
  unfold rowVals rowDup
  rw [scan_map_iff _ _ idx9_nodup]
  constructor
  · rintro h ⟨i, j, hij, h0, he⟩
    exact hij (h i (mem_idx9 i) j (mem_idx9 j) h0 he)
  · intro h i _ j _ h0 he
    by_contra hij
    exact h ⟨i, j, hij, h0, he⟩

theorem scan_col_iff (p : puzzle) (col : Fin 9) :
    scan [] (colVals p col) = true ↔ ¬ colDup p col := by
  unfold colVals colDup
  rw [scan_map_iff _ _ idx9_nodup]
  constructor
  · rintro h ⟨i, j, hij, h0, he⟩
    exact hij (h i (mem_idx9 i) j (mem_idx9 j) h0 he)
  · intro h i _ j _ h0 he
    by_contra hij
    exact h ⟨i, j, hij, h0, he⟩

theorem scan_box_iff (p : puzzle) (row col : Fin 9) :
    scan [] (boxVals p row col) = true ↔ ¬ boxDup p row col := by
  rw [boxVals_eq, scan_map_iff _ _ pairs3_nodup]
  unfold boxDup
  constructor
  · rintro h ⟨i, j, k, l, hne, h0, he⟩
    exact hne (h (i, j) (mem_pairs3 _) (k, l) (mem_pairs3 _) h0 he)
  · intro h x _ y _ h0 he
    by_contra hne
    exact h ⟨x.1, x.2, y.1, y.2, hne, h0, he⟩

/-- The validator accepts exactly when none of the three scanned units holds a
repeated nonzero value. -/
theorem validate_true_iff (p : puzzle) (row col : Fin 9) :
    validate p row col = true ↔ ¬ rowDup p row ∧ ¬ colDup p col ∧ ¬ boxDup p row col := by
  rw [← scan_row_iff, ← scan_col_iff, ← scan_box_iff]
  unfold validate
  cases scan [] (rowVals p row) <;> cases scan [] (colVals p col) <;>
    cases scan [] (boxVals p row col) <;> simp

/-- Claim C6. For every 9×9 grid and every `row`, `col` in `0..8`,
`validate (row, col)` returns `false` if and only if row `row`, column `col`
or the 3×3 box anchored at `(row - row % 3, col - col % 3)` holds the same
nonzero value in two different cells; in particular it returns `true` at every
coordinate of the all-zero grid. -/
theorem validate_false_iff_dup :
    (∀ (p : puzzle) (row col : Fin 9),
      validate p row col = false ↔ (rowDup p row ∨ colDup p col ∨ boxDup p row col)) ∧
    (∀ row col : Fin 9, validate (fun _ _ => 0) row col = true) := by
  constructor
  · intro p row col
    have h := validate_true_iff p row col
    constructor
    · intro hf
      by_contra hno
      push_neg at hno
      have := h.2 hno
      rw [hf] at this
      exact absurd this (by simp)
    · intro hd
      cases hv : validate p row col with
      | false => rfl
      | true =>
        have := h.1 hv
        tauto
  · intro row col
    rw [validate_true_iff]
    refine ⟨?_, ?_, ?_⟩
    · rintro ⟨i, j, _, h0, _⟩; exact h0 rfl
    · rintro ⟨i, j, _, h0, _⟩; exact h0 rfl
    · rintro ⟨i, j, k, l, _, h0, _⟩; exact h0 rfl

theorem rowVals_eq (p : puzzle) (row : Fin 9) : rowVals p row = valsOn p (rowCells row) := rfl

theorem colVals_eq (p : puzzle) (col : Fin 9) : colVals p col = valsOn p (colCells col) := rfl

theorem boxVals_eq_valsOn (p : puzzle) (row col : Fin 9) :
    boxVals p row col = valsOn p (boxCells row col) := rfl

theorem rowCells_nodup (row : Fin 9) : (rowCells row).Nodup := by
  revert row; decide

theorem colCells_nodup (col : Fin 9) : (colCells col).Nodup := by
  revert col; decide

theorem boxCells_nodup (row col : Fin 9) : (boxCells row col).Nodup := by
  revert row col; decide

theorem isUnit_nodup (u : List Cell) (h : IsUnit u) : u.Nodup := by
  rcases h with ⟨r, rfl⟩ | ⟨c, rfl⟩ | ⟨r, c, rfl⟩
  · exact rowCells_nodup r
  · exact colCells_nodup c
  · exact boxCells_nodup r c

theorem isUnit_length (u : List Cell) (h : IsUnit u) : u.length = 9 := by
  rcases h with ⟨r, rfl⟩ | ⟨c, rfl⟩ | ⟨r, c, rfl⟩ <;> rfl

theorem scan_valsOn_iff (p : puzzle) (u : List Cell) (hu : u.Nodup) :
    scan [] (valsOn p u) = true ↔ NoDup p u :=
  scan_map_iff (fun x : Cell => p x.1 x.2) u hu

theorem rowDup_iff (p : puzzle) (row : Fin 9) : ¬ rowDup p row ↔ NoDup p (rowCells row) := by
  rw [← scan_row_iff, rowVals_eq, scan_valsOn_iff _ _ (rowCells_nodup row)]

theorem colDup_iff (p : puzzle) (col : Fin 9) : ¬ colDup p col ↔ NoDup p (colCells col) := by
  rw [← scan_col_iff, colVals_eq, scan_valsOn_iff _ _ (colCells_nodup col)]

theorem boxDup_iff (p : puzzle) (row col : Fin 9) :
    ¬ boxDup p row col ↔ NoDup p (boxCells row col) := by
  rw [← scan_box_iff, boxVals_eq_valsOn, scan_valsOn_iff _ _ (boxCells_nodup row col)]

theorem validate_units (p : puzzle) (row col : Fin 9) :
    validate p row col = true ↔
      NoDup p (rowCells row) ∧ NoDup p (colCells col) ∧ NoDup p (boxCells row col) := by
  rw [validate_true_iff, rowDup_iff, colDup_iff, boxDup_iff]

theorem consistent_iff (p : puzzle) : consistent p ↔ ∀ u, IsUnit u → NoDup p u := by
  unfold consistent
  constructor
  · rintro ⟨h1, h2, h3⟩ u hu
    rcases hu with ⟨r, rfl⟩ | ⟨c, rfl⟩ | ⟨r, c, rfl⟩
    · exact (rowDup_iff p r).1 (h1 r)
    · exact (colDup_iff p c).1 (h2 c)
    · exact (boxDup_iff p r c).1 (h3 r c)
  · intro h
    refine ⟨fun r => (rowDup_iff p r).2 (h _ (Or.inl ⟨r, rfl⟩)),
      fun c => (colDup_iff p c).2 (h _ (Or.inr (Or.inl ⟨c, rfl⟩))),
      fun r c => (boxDup_iff p r c).2 (h _ (Or.inr (Or.inr ⟨r, c, rfl⟩)))⟩

theorem fullyValid_iff (p : puzzle) :
    fullyValid p ↔ ∀ u, IsUnit u → ∀ d ∈ digits, (valsOn p u).count d = 1 := by
  unfold fullyValid
  constructor
  · intro h u hu d hd
    obtain ⟨h1, h2, h3⟩ := h d hd
    rcases hu with ⟨r, rfl⟩ | ⟨c, rfl⟩ | ⟨r, c, rfl⟩
    · exact h1 r
    · exact h2 c
    · exact h3 r c
  · intro h d hd
    exact ⟨fun r => h _ (Or.inl ⟨r, rfl⟩) d hd, fun c => h _ (Or.inr (Or.inl ⟨c, rfl⟩)) d hd,
      fun r c => h _ (Or.inr (Or.inr ⟨r, c, rfl⟩)) d hd⟩

theorem mem_rowCells (row : Fin 9) (x : Cell) : x ∈ rowCells row ↔ x.1 = row := by
  revert row x; decide

theorem mem_colCells (col : Fin 9) (x : Cell) : x ∈ colCells col ↔ x.2 = col := by
  revert col x; decide

theorem boxIndex_eq (a b : Fin 9) (i : Fin 3) (h : a = boxIndex b i) :
    boxIndex a = boxIndex b := by
  revert a b i; decide

theorem mem_boxCells_self (row col : Fin 9) : (row, col) ∈ boxCells row col := by
  revert row col; decide

theorem boxCells_eq_of_mem (row col : Fin 9) (x : Cell) (h : x ∈ boxCells row col) :
    boxCells row col = boxCells x.1 x.2 := by
  unfold boxCells at h
  obtain ⟨y, _, hy⟩ := List.mem_map.1 h
  have h1 : boxIndex x.1 = boxIndex row := boxIndex_eq _ _ y.1 (by rw [← hy])
  have h2 : boxIndex x.2 = boxIndex col := boxIndex_eq _ _ y.2 (by rw [← hy])
  unfold boxCells
  rw [h1, h2]

/-- A unit through the cell `(r, c)` is its row, its column or its box. -/
theorem unit_of_mem (u : List Cell) (hu : IsUnit u) (r c : Fin 9) (h : (r, c) ∈ u) :
    u = rowCells r ∨ u = colCells c ∨ u = boxCells r c := by
  rcases hu with ⟨r1, rfl⟩ | ⟨c1, rfl⟩ | ⟨r1, c1, rfl⟩
  · left
    have e : r = r1 := (mem_rowCells r1 (r, c)).1 h
    rw [e]
  · right; left
    have e : c = c1 := (mem_colCells c1 (r, c)).1 h
    rw [e]
  · right; right; exact boxCells_eq_of_mem r1 c1 (r, c) h

theorem digits_nodup : digits.Nodup := by decide

/-- A unit holds each digit exactly once exactly when it holds only digits
and no value twice. -/
theorem count_one_iff (p : puzzle) (u : List Cell) (hu : IsUnit u) :
    (∀ d ∈ digits, (valsOn p u).count d = 1) ↔
      NoDup p u ∧ ∀ x ∈ u, p x.1 x.2 ∈ digits := by
  have hlen : (valsOn p u).length = 9 := by
    unfold valsOn; rw [List.length_map]; exact isUnit_length u hu
  have hnd := isUnit_nodup u hu
  constructor
  · intro h
    have hsub : digits.Subperm (valsOn p u) := by
      rw [List.subperm_ext_iff]
      intro d hd
      rw [h d hd, List.count_eq_one_of_mem digits_nodup hd]
    have hperm : digits.Perm (valsOn p u) :=
      hsub.perm_of_length_le (by rw [hlen]; decide)
    have hvnd : (valsOn p u).Nodup := hperm.nodup_iff.1 digits_nodup
    refine ⟨?_, ?_⟩
    · intro x hx y hy _ hxy
      exact List.inj_on_of_nodup_map hvnd hx hy hxy
    · intro x hx
      exact hperm.mem_iff.2 (List.mem_map.2 ⟨x, hx, rfl⟩)
  · rintro ⟨h1, h2⟩ d hd
    have hvnd : (valsOn p u).Nodup := by
      unfold valsOn
      rw [List.nodup_map_iff_inj_on hnd]
      intro x hx y hy hxy
      exact h1 x hx y hy (digits_ne_zero _ (h2 x hx)) hxy
    have hsub : (valsOn p u).Subperm digits :=
      List.subperm_of_subset hvnd (by
        intro v hv
        obtain ⟨x, hx, rfl⟩ := List.mem_map.1 hv
        exact h2 x hx)
    have hperm : (valsOn p u).Perm digits :=
      hsub.perm_of_length_le (by rw [hlen]; decide)
    rw [hperm.count_eq, List.count_eq_one_of_mem digits_nodup hd]

/-! ## Invariants of the search -/

/-- A call that returns `true` leaves no empty cell. -/
theorem solveFuel_true_full : ∀ (n : Nat) (p p1 : puzzle) (t : List Event),
    solveFuel n p = some (true, p1, t) → ∀ r c, p1 r c ≠ 0 := by
  intro n
  induction n with
  | zero => intro p p1 t h; simp [solveFuel] at h
  | succ n ih =>
    intro p p1 t h
    rcases solveFuel_cases n p true p1 t h with ⟨hfull, _, rfl, _⟩ | ⟨row, col, _, hc⟩
    · exact hfull
    · rcases hc with ⟨hb, _⟩ | ⟨_, pre, v, post, _, _, _, ⟨t1, ht1⟩, _⟩
      · exact absurd hb (by simp)
      · exact ih _ _ _ ht1

/-- A call never changes a cell that is nonzero when it is entered. -/
theorem solveFuel_clues : ∀ (n : Nat) (p : puzzle) (b : Bool) (p1 : puzzle) (t : List Event),
    solveFuel n p = some (b, p1, t) → ∀ r c, p r c ≠ 0 → p1 r c = p r c := by
  intro n
  induction n with
  | zero => intro p b p1 t h; simp [solveFuel] at h
  | succ n ih =>
    intro p b p1 t h r c hrc
    rcases solveFuel_cases n p b p1 t h with ⟨_, _, rfl, _⟩ | ⟨row, col, hfe, hc⟩
    · rfl
    · rcases hc with ⟨_, rfl, _⟩ | ⟨_, pre, v, post, _, _, _, ⟨t1, ht1⟩, _⟩
      · rfl
      · have hne : ¬ (r = row ∧ c = col) := by
          rintro ⟨rfl, rfl⟩
          exact hrc hfe.1
        have hq : (p.set row col v) r c = p r c := set_other _ _ _ _ _ _ hne
        rw [← hq]
        exact ih _ _ _ _ ht1 r c (by rw [hq]; exact hrc)

/-- Every cell a call leaves behind holds its old value or one of the digits `1..9`. -/
theorem solveFuel_values : ∀ (n : Nat) (p : puzzle) (b : Bool) (p1 : puzzle) (t : List Event),
    solveFuel n p = some (b, p1, t) → ∀ r c, p1 r c = p r c ∨ p1 r c ∈ digits := by
  intro n
  induction n with
  | zero => intro p b p1 t h; simp [solveFuel] at h
  | succ n ih =>
    intro p b p1 t h r c
    rcases solveFuel_cases n p b p1 t h with ⟨_, _, rfl, _⟩ | ⟨row, col, hfe, hc⟩
    · exact Or.inl rfl
    · rcases hc with ⟨_, rfl, _⟩ | ⟨_, pre, v, post, hd, _, _, ⟨t1, ht1⟩, _⟩
      · exact Or.inl rfl
      · have hv : v ∈ digits := by rw [hd]; simp
        rcases ih _ _ _ _ ht1 r c with h1 | h1
        · by_cases hne : r = row ∧ c = col
          · obtain ⟨rfl, rfl⟩ := hne
            right; rw [h1, set_same]; exact hv
          · left; rw [h1, set_other _ _ _ _ _ _ hne]
        · exact Or.inr h1

/-- Freedom from duplicates on a unit only depends on the values on the unit. -/
theorem NoDup_congr (p q : puzzle) (u : List Cell)
    (h : ∀ x ∈ u, q x.1 x.2 = p x.1 x.2) (hp : NoDup p u) : NoDup q u := by
  intro x hx y hy h0 hxy
  rw [h x hx] at h0 hxy
  rw [h y hy] at hxy
  exact hp x hx y hy h0 hxy

/-- A puzzle that agrees on its nonzero cells with a duplicate-free one is
duplicate-free. -/
theorem NoDup_of_agree (p s : puzzle) (u : List Cell)
    (h : ∀ r c, p r c ≠ 0 → s r c = p r c) (hs : NoDup s u) : NoDup p u := by
  intro x hx y hy h0 hxy
  have hy0 : p y.1 y.2 ≠ 0 := by rw [← hxy]; exact h0
  have e1 := h x.1 x.2 h0
  have e2 := h y.1 y.2 hy0
  exact hs x hx y hy (by rw [e1]; exact h0) (by rw [e1, e2]; exact hxy)

/-- After a call that returns `true`, every unit that held an empty cell when
the call was entered is free of duplicates. -/
theorem solveFuel_units : ∀ (n : Nat) (p p1 : puzzle) (t : List Event),
    solveFuel n p = some (true, p1, t) →
    ∀ u, IsUnit u → (∃ x ∈ u, p x.1 x.2 = 0) → NoDup p1 u := by
  intro n
  induction n with
  | zero => intro p p1 t h; simp [solveFuel] at h
  | succ n ih =>
    intro p p1 t h u hu hex
    rcases solveFuel_cases n p true p1 t h with ⟨hfull, _, _, _⟩ | ⟨row, col, hfe, hc⟩
    · obtain ⟨x, _, hx⟩ := hex
      exact absurd hx (hfull _ _)
    · rcases hc with ⟨hb, _⟩ | ⟨_, pre, v, post, hd, _, hval, ⟨t1, ht1⟩, _⟩
      · exact absurd hb (by simp)
      · have hv : v ∈ digits := by rw [hd]; simp
        by_cases hq : ∃ x ∈ u, (p.set row col v) x.1 x.2 = 0
        · exact ih _ _ _ ht1 u hu hq
        · push_neg at hq
          obtain ⟨x, hxu, hx0⟩ := hex
          have hxe : x = (row, col) := by
            by_contra hne
            have hne' : ¬ (x.1 = row ∧ x.2 = col) := by
              rintro ⟨h1, h2⟩
              exact hne (Prod.ext h1 h2)
            have := hq x hxu
            rw [set_other _ _ _ _ _ _ hne'] at this
            exact this hx0
          subst hxe
          have hnd : NoDup (p.set row col v) u := by
            have hvu := (validate_units _ _ _).1 hval
            rcases unit_of_mem u hu row col hxu with rfl | rfl | rfl
            · exact hvu.1
            · exact hvu.2.1
            · exact hvu.2.2
          exact NoDup_congr _ _ u
            (fun y hy => solveFuel_clues _ _ _ _ _ ht1 y.1 y.2 (hq y hy)) hnd

/-- From a rule-consistent puzzle, a call that returns `true` leaves a
rule-consistent puzzle. -/
theorem solveFuel_consistent (n : Nat) (p p1 : puzzle) (t : List Event)
    (h : solveFuel n p = some (true, p1, t)) (hc : consistent p) : consistent p1 := by
  rw [consistent_iff] at hc ⊢
  intro u hu
  by_cases hex : ∃ x ∈ u, p x.1 x.2 = 0
  · exact solveFuel_units n p p1 t h u hu hex
  · push_neg at hex
    exact NoDup_congr _ _ u
      (fun y hy => solveFuel_clues _ _ _ _ _ h y.1 y.2 (hex y hy)) (hc u hu)

/-- After a call that returns `true` on a puzzle with entries in `0..9`, every
cell holds a digit `1..9`. -/
theorem solveFuel_digits (n : Nat) (p p1 : puzzle) (t : List Event)
    (h : solveFuel n p = some (true, p1, t)) (hr : inRange p) :
    ∀ r c, p1 r c ∈ digits := by
  intro r c
  have h0 := solveFuel_true_full n p p1 t h r c
  rcases solveFuel_values n p true p1 t h r c with h1 | h1
  · rw [mem_digits]
    have := hr r c
    rw [← h1] at this
    omega
  · exact h1

/-- From a rule-consistent puzzle with entries in `0..9`, a call that returns
`true` leaves a legal completion of the puzzle. -/
theorem solveFuel_sound (n : Nat) (p p1 : puzzle) (t : List Event)
    (h : solveFuel n p = some (true, p1, t)) (hc : consistent p) (hr : inRange p) :
    completes p1 p := by
  refine ⟨fun r c hrc => solveFuel_clues n p true p1 t h r c hrc, ?_⟩
  rw [fullyValid_iff]
  intro u hu
  rw [count_one_iff p1 u hu]
  exact ⟨(consistent_iff p1).1 (solveFuel_consistent n p p1 t h hc) u hu,
    fun x _ => solveFuel_digits n p p1 t h hr x.1 x.2⟩

/-- A fully valid puzzle is rule-consistent, holds only digits and has no empty cell. -/
theorem fullyValid_props (s : puzzle) (h : fullyValid s) :
    consistent s ∧ (∀ r c, s r c ∈ digits) := by
  rw [fullyValid_iff] at h
  constructor
  · rw [consistent_iff]
    intro u hu
    exact ((count_one_iff s u hu).1 (h u hu)).1
  · intro r c
    have hu : IsUnit (rowCells r) := Or.inl ⟨r, rfl⟩
    exact ((count_one_iff s _ hu).1 (h _ hu)).2 (r, c) ((mem_rowCells r (r, c)).2 rfl)

/-- A puzzle with a legal completion is rule-consistent with entries in `0..9`. -/
theorem completes_props (s p : puzzle) (h : completes s p) : consistent p ∧ inRange p := by
  obtain ⟨hag, hfv⟩ := h
  obtain ⟨hcs, hds⟩ := fullyValid_props s hfv
  constructor
  · rw [consistent_iff] at hcs ⊢
    intro u hu
    exact NoDup_of_agree p s u hag (hcs u hu)
  · intro r c
    by_cases h0 : p r c = 0
    · rw [h0]; decide
    · rw [← hag r c h0]
      have := (mem_digits _).1 (hds r c)
      omega

/-- A legal completion of `p` is a legal completion of `p` with the value of
the completion written into a cell. -/
theorem completes_set (s p : puzzle) (row col : Fin 9) (h : completes s p) :
    completes s (p.set row col (s row col)) := by
  refine ⟨?_, h.2⟩
  intro r c hrc
  by_cases hne : r = row ∧ c = col
  · obtain ⟨rfl, rfl⟩ := hne
    rw [set_same]
  · rw [set_other _ _ _ _ _ _ hne] at hrc ⊢
    exact h.1 r c hrc

/-- The validator accepts every cell of a puzzle that has a legal completion. -/
theorem validate_of_completes (s p : puzzle) (row col : Fin 9) (h : completes s p) :
    validate p row col = true := by
  have hc := (consistent_iff p).1 (completes_props s p h).1
  rw [validate_units]
  exact ⟨hc _ (Or.inl ⟨row, rfl⟩), hc _ (Or.inr (Or.inl ⟨col, rfl⟩)),
    hc _ (Or.inr (Or.inr ⟨row, col, rfl⟩))⟩

/-- With a budget above the number of empty cells, a call on a puzzle that has
a legal completion returns `true`. -/
theorem solveFuel_complete : ∀ (n : Nat) (p : puzzle), emptyCount p < n →
    ∀ s, completes s p → ∃ p1 t, solveFuel n p = some (true, p1, t) := by
  intro n
  induction n with
  | zero => intro p h; omega
  | succ n ih =>
    intro p hn s hs
    obtain ⟨o, ho⟩ := solveFuel_total (n + 1) p hn
    obtain ⟨b, p1, t⟩ := o
    cases b with
    | true => exact ⟨p1, t, ho⟩
    | false =>
      exfalso
      rcases solveFuel_cases n p false p1 t ho with ⟨_, hb, _⟩ | ⟨row, col, hfe, hc⟩
      · exact absurd hb (by simp)
      · rcases hc with ⟨_, _, hfail, _⟩ | ⟨hb, _⟩
        · have hv : s row col ∈ digits := (fullyValid_props s hs.2).2 row col
          have hs' := completes_set s p row col hs
          rcases hfail _ hv with h1 | ⟨t1, h1⟩
          · rw [validate_of_completes s _ row col hs'] at h1
            exact absurd h1 (by simp)
          · have hlt : emptyCount (p.set row col (s row col)) < n := by
              have := emptyCount_set p row col _ hfe.1 (digits_ne_zero _ hv)
              omega
            obtain ⟨p2, t2, h2⟩ := ih _ hlt s hs'
            rw [h1] at h2
            simp at h2
        · exact absurd hb (by simp)

/-- A call on a puzzle that has a legal completion never returns `false`,
whatever the budget. -/
theorem solveFuel_not_false (n : Nat) (p s : puzzle) (hs : completes s p)
    (p1 : puzzle) (t : List Event) : solveFuel n p ≠ some (false, p1, t) := by
  intro h
  have h1 := solveFuel_mono n (max n 82) (le_max_left _ _) p _ h
  obtain ⟨p2, t2, h2⟩ := solveFuel_complete (max n 82) p
    (by have := emptyCount_le p; have := le_max_right n 82; omega) s hs
  rw [h1] at h2
  simp at h2

theorem digits_sorted : digits.Pairwise (fun a b => a < b) := by decide

/-- The puzzle a successful call leaves behind is below every other legal
completion at the first cell, in row-major order, where the two differ. -/
theorem solveFuel_lex : ∀ (n : Nat) (p s : puzzle) (t : List Event),
    solveFuel n p = some (true, s, t) →
    ∀ s1, completes s1 p → s1 ≠ s →
      ∃ r c, s r c < s1 r c ∧ ∀ r1 c1, before r1 c1 r c → s r1 c1 = s1 r1 c1 := by
  intro n
  induction n with
  | zero => intro p s t h; simp [solveFuel] at h
  | succ n ih =>
    intro p s t h s1 hs1 hne
    rcases solveFuel_cases n p true s t h with ⟨hfull, _, rfl, _⟩ | ⟨row, col, hfe, hc⟩
    · exfalso
      apply hne
      funext r c
      exact hs1.1 r c (hfull r c)
    · rcases hc with ⟨hb, _⟩ | ⟨_, pre, v, post, hd, hfail, _, ⟨t1, ht1⟩, _⟩
      · exact absurd hb (by simp)
      · have hv : v ∈ digits := by rw [hd]; simp
        have hsv : s row col = v := by
          have := solveFuel_clues n _ true s t1 ht1 row col
            (by rw [set_same]; exact digits_ne_zero v hv)
          rw [this, set_same]
        by_cases hw : s1 row col = v
        · have hs1' : completes s1 (p.set row col v) := by
            rw [← hw]; exact completes_set s1 p row col hs1
          exact ih _ _ _ ht1 s1 hs1' hne
        · refine ⟨row, col, ?_, ?_⟩
          · have hw1 : s1 row col ∈ digits := (fullyValid_props s1 hs1.2).2 row col
            have hsort := digits_sorted
            rw [hd, List.pairwise_append, List.pairwise_cons] at hsort
            rw [hd] at hw1
            rcases List.mem_append.1 hw1 with hin | hin
            · exfalso
              have hs1' := completes_set s1 p row col hs1
              rcases hfail _ hin with h1 | ⟨t2, h1⟩
              · rw [validate_of_completes s1 _ row col hs1'] at h1
                exact absurd h1 (by simp)
              · exact solveFuel_not_false n _ s1 hs1' _ _ h1
            · rcases List.mem_cons.1 hin with h1 | h1
              · exact absurd h1 hw
              · rw [hsv]
                exact hsort.2.1.1 _ h1
          · intro r1 c1 hb
            have h0 : p r1 c1 ≠ 0 := hfe.2 r1 c1 hb
            rw [solveFuel_clues (n + 1) p true s t h r1 c1 h0, hs1.1 r1 c1 h0]

theorem mem_trialTrace (rec : puzzle → Option Outcome) (p : puzzle) (row col : Fin 9)
    (v : Int) (e : Event) (h : e ∈ trialTrace rec p row col v) :
    e = Event.write row col v ∨ e = Event.wasmUpdateDOM (p.set row col v) row col ∨
      e = Event.solve (p.set row col v) ∨
      ∃ o, rec (p.set row col v) = some o ∧ e ∈ o.2.2 := by
  unfold trialTrace at h
  rcases List.mem_append.1 h with h1 | h1
  · simp only [List.mem_cons, List.mem_singleton, List.not_mem_nil, or_false] at h1
    rcases h1 with h1 | h1
    · exact Or.inl h1
    · exact Or.inr (Or.inl h1)
  · split at h1
    · rcases List.mem_cons.1 h1 with h2 | h2
      · exact Or.inr (Or.inr (Or.inl h2))
      · split at h2
        · rename_i o ho
          exact Or.inr (Or.inr (Or.inr ⟨o, ho, h2⟩))
        · simp at h2
    · simp at h1

theorem writes_trial (rec : puzzle → Option Outcome) (p : puzzle) (row col : Fin 9)
    (hp0 : p row col = 0)
    (hrec : ∀ q o, rec q = some o → ∀ r c v, Event.write r c v ∈ o.2.2 → q r c = 0)
    (u : Int) (r c : Fin 9) (w : Int)
    (h : Event.write r c w ∈ trialTrace rec p row col u) : p r c = 0 := by
  rcases mem_trialTrace _ _ _ _ _ _ h with h1 | h1 | h1 | ⟨o, ho, h1⟩
  · simp only [Event.write.injEq] at h1
    rw [h1.1, h1.2.1]; exact hp0
  · simp at h1
  · simp at h1
  · have := hrec _ _ ho r c w h1
    by_cases hne : r = row ∧ c = col
    · rw [hne.1, hne.2]; exact hp0
    · rwa [set_other _ _ _ _ _ _ hne] at this

theorem writes_failed (rec : puzzle → Option Outcome) (p : puzzle) (row col : Fin 9)
    (hp0 : p row col = 0)
    (hrec : ∀ q o, rec q = some o → ∀ r c v, Event.write r c v ∈ o.2.2 → q r c = 0)
    (vals : List Int) (r c : Fin 9) (w : Int)
    (h : Event.write r c w ∈ vals.flatMap (failedTrace rec p row col)) : p r c = 0 := by
  obtain ⟨u, _, hu⟩ := List.mem_flatMap.1 h
  unfold failedTrace at hu
  rcases List.mem_append.1 hu with h1 | h1
  · exact writes_trial rec p row col hp0 hrec u r c w h1
  · simp only [List.mem_singleton, Event.write.injEq] at h1
    rw [h1.1, h1.2.1]; exact hp0

/-- Every store of a call goes to a cell that is empty when the call is entered. -/
theorem solveFuel_writes : ∀ (n : Nat) (p : puzzle) (o : Outcome),
    solveFuel n p = some o → ∀ r c v, Event.write r c v ∈ o.2.2 → p r c = 0 := by
  intro n
  induction n with
  | zero => intro p o h; simp [solveFuel] at h
  | succ n ih =>
    intro p o h r c w hw
    obtain ⟨b, p1, t⟩ := o
    simp only at hw
    rcases solveFuel_cases n p b p1 t h with ⟨_, _, _, rfl⟩ | ⟨row, col, hfe, hc⟩
    · simp at hw
    · rcases hc with ⟨_, _, _, rfl⟩ | ⟨_, pre, v, post, _, _, _, _, rfl⟩
      · rcases List.mem_append.1 hw with h1 | h1
        · exact writes_failed _ p row col hfe.1 ih digits r c w h1
        · simp at h1
      · rcases List.mem_append.1 hw with h1 | h1
        · exact writes_failed _ p row col hfe.1 ih pre r c w h1
        · exact writes_trial _ p row col hfe.1 ih v r c w h1

/-! ## The claims about `solve` -/

/-- A call on a puzzle without empty cell returns `true` with no event. -/
theorem solve_of_full (p : puzzle) (h : ∀ r c, p r c ≠ 0) : solve p = some (true, p, []) :=
  solveBody_full (solveFuel 81) p h

/-- Claim C1. For every 9×9 grid with entries in `0..9` in which no row,
column or 3×3 box holds the same nonzero digit twice, if `solve` returns
`true` then in the final grid every row, every column and every 3×3 box
contains each digit `1..9` exactly once; in particular no cell is 0 and the
final grid is a legal completion of the input, so a grid without legal
completion never yields `true`. -/
theorem solve_sound (p p1 : puzzle) (t : List Event) (hc : consistent p) (hr : inRange p)
    (h : solve p = some (true, p1, t)) :
    fullyValid p1 ∧ (∀ r c, p1 r c ≠ 0) ∧ completes p1 p :=
  have hcomp := solveFuel_sound 82 p p1 t h hc hr
  ⟨hcomp.2, solveFuel_true_full 82 p p1 t h, hcomp⟩

theorem solve_sound_witness :
    consistent oneMissing ∧ inRange oneMissing ∧
      ∃ p1 t, solve oneMissing = some (true, p1, t) ∧ fullyValid p1 := by
  have hd : (solve oneMissing).map (fun o => o.1) = some true := by decide
  have hc : consistent oneMissing :=
    (completes_props solvedGrid oneMissing (by decide)).1
  have hr : inRange oneMissing := by decide
  cases h : solve oneMissing with
  | none => rw [h] at hd; simp at hd
  | some o =>
    obtain ⟨b, p1, t⟩ := o
    rw [h] at hd
    simp only [Option.map_some', Option.some.injEq] at hd
    subst hd
    exact ⟨hc, hr, p1, t, rfl, (solve_sound oneMissing p1 t hc hr h).1⟩

/-- Claim C2. For every 9×9 grid that has at least one legal completion (a
grid agreeing with it on all nonzero cells in which every row, column and 3×3
box contains each digit `1..9` exactly once), `solve` returns `true`.  (The
entries of such a grid lie in `0..9` by `completes_props`.) -/
theorem solve_complete (p s : puzzle) (hs : completes s p) :
    ∃ p1 t, solve p = some (true, p1, t) :=
  solveFuel_complete 82 p (by have := emptyCount_le p; omega) s hs

theorem solve_complete_witness :
    completes solvedGrid oneMissing ∧ ∃ p1 t, solve oneMissing = some (true, p1, t) :=
  ⟨by decide, solve_complete oneMissing solvedGrid (by decide)⟩

/-- Claim C3. For every 9×9 grid that has exactly one legal completion `s`
(such a grid is rule-consistent with entries in `0..9`), `solve` returns
`true` and the grid after the call is equal to `s` cell for cell. -/
theorem solve_unique (p s : puzzle) (hs : completes s p)
    (huniq : ∀ s1, completes s1 p → s1 = s) :
    ∃ t, solve p = some (true, s, t) := by
  obtain ⟨p1, t, h⟩ := solveFuel_complete 82 p (by have := emptyCount_le p; omega) s hs
  obtain ⟨hc, hr⟩ := completes_props s p hs
  have h1 : p1 = s := huniq p1 (solveFuel_sound 82 p p1 t h hc hr)
  subst h1
  exact ⟨t, h⟩

/-- The grid `oneMissing` has no other legal completion than `solvedGrid`. -/
theorem oneMissing_unique (s1 : puzzle) (h : completes s1 oneMissing) : s1 = solvedGrid := by
  have hag : ∀ r c : Fin 9, ¬ (r = 0 ∧ c = 0) →
      oneMissing r c ≠ 0 ∧ oneMissing r c = solvedGrid r c := by decide
  have hrow := (h.2 5 (by decide)).1 0
  have e1 := h.1 0 1 (by decide)
  have e2 := h.1 0 2 (by decide)
  have e3 := h.1 0 3 (by decide)
  have e4 := h.1 0 4 (by decide)
  have e5 := h.1 0 5 (by decide)
  have e6 := h.1 0 6 (by decide)
  have e7 := h.1 0 7 (by decide)
  have e8 := h.1 0 8 (by decide)
  have hv : rowVals s1 0 = [s1 0 0, 3, 4, 6, 7, 8, 9, 1, 2] := by
    simp only [rowVals, idx9, List.map_cons, List.map_nil, e1, e2, e3, e4, e5, e6, e7, e8]
    rfl
  rw [hv, List.count_cons] at hrow
  have h00 : s1 0 0 = 5 := by
    by_contra hne
    have hc : List.count (5 : Int) [3, 4, 6, 7, 8, 9, 1, 2] = 0 := by decide
    rw [hc] at hrow
    simp [hne] at hrow
  funext r c
  by_cases hrc : r = 0 ∧ c = 0
  · obtain ⟨rfl, rfl⟩ := hrc
    rw [h00]; rfl
  · rw [h.1 r c (hag r c hrc).1, (hag r c hrc).2]

theorem solve_unique_witness :
    completes solvedGrid oneMissing ∧ (∀ s1, completes s1 oneMissing → s1 = solvedGrid) ∧
      ∃ t, solve oneMissing = some (true, solvedGrid, t) :=
  ⟨by decide, oneMissing_unique,
    solve_unique oneMissing solvedGrid (by decide) oneMissing_unique⟩

/-- Claim C4. For every 9×9 grid and every cell that is nonzero when `solve`
is called, that cell holds the same value after `solve` returns (with `true`
or with `false`), and no store of the call, recursive calls included, goes to
that cell. -/
theorem solve_keeps_clues (p : puzzle) (b : Bool) (p1 : puzzle) (t : List Event)
    (h : solve p = some (b, p1, t)) (r c : Fin 9) (hrc : p r c ≠ 0) :
    p1 r c = p r c ∧ ∀ v, Event.write r c v ∉ t :=
  ⟨solveFuel_clues 82 p b p1 t h r c hrc,
    fun v hv => hrc (solveFuel_writes 82 p (b, p1, t) h r c v hv)⟩

theorem solve_keeps_clues_witness :
    oneMissing 0 1 ≠ 0 ∧ ∃ b p1 t, solve oneMissing = some (b, p1, t) ∧
      p1 0 1 = oneMissing 0 1 ∧ ∀ v, Event.write 0 1 v ∉ t := by
  obtain ⟨o, ho⟩ := solve_total oneMissing
  obtain ⟨b, p1, t⟩ := o
  exact ⟨by decide, b, p1, t, ho, solve_keeps_clues oneMissing b p1 t ho 0 1 (by decide)⟩

/-- Claim C5. For every 9×9 grid, if `solve` returns `false` then the grid
after the call is equal, cell for cell, to the grid at entry to the call. -/
theorem solve_false_restores (p p1 : puzzle) (t : List Event)
    (h : solve p = some (false, p1, t)) : p1 = p :=
  solveFuel_restores 82 p false p1 t h rfl

theorem solve_false_restores_witness :
    ∃ p1 t, solve deadEnd = some (false, p1, t) ∧ p1 = deadEnd := by
  have hd : (solve deadEnd).map (fun o => o.1) = some false := by decide
  cases h : solve deadEnd with
  | none => rw [h] at hd; simp at hd
  | some o =>
    obtain ⟨b, p1, t⟩ := o
    rw [h] at hd
    simp only [Option.map_some', Option.some.injEq] at hd
    subst hd
    exact ⟨p1, t, rfl, solve_false_restores deadEnd p1 t h⟩

/-- Claim C7, as the code has it. For every 9×9 grid with entries in `0..9`,
if `solve` returns `true` then no cell of the resulting grid is 0, every cell
that was nonzero when `solve` was called holds the value it was given (so a
row, column or box that was full at entry stays exactly as given), and every
row, every column and every 3×3 box that held an empty cell when `solve` was
called contains each digit `1..9` exactly once. -/
theorem solve_true_touched_units (p p1 : puzzle) (t : List Event) (hr : inRange p)
    (h : solve p = some (true, p1, t)) :
    (∀ r c, p1 r c ≠ 0) ∧ (∀ r c, p r c ≠ 0 → p1 r c = p r c) ∧ ∀ d ∈ digits,
      (∀ row, (∃ c, p row c = 0) → (rowVals p1 row).count d = 1) ∧
      (∀ col, (∃ r, p r col = 0) → (colVals p1 col).count d = 1) ∧
      (∀ row col, (∃ i j : Fin 3, p (boxIndex row i) (boxIndex col j) = 0) →
        (boxVals p1 row col).count d = 1) := by
  have key : ∀ u, IsUnit u → (∃ x ∈ u, p x.1 x.2 = 0) →
      ∀ d ∈ digits, (valsOn p1 u).count d = 1 := by
    intro u hu hex
    rw [count_one_iff p1 u hu]
    exact ⟨solveFuel_units 82 p p1 t h u hu hex,
      fun x _ => solveFuel_digits 82 p p1 t h hr x.1 x.2⟩
  refine ⟨solveFuel_true_full 82 p p1 t h, solveFuel_clues 82 p true p1 t h,
    fun d hd => ⟨?_, ?_, ?_⟩⟩
  · rintro row ⟨c, hc⟩
    exact key _ (Or.inl ⟨row, rfl⟩) ⟨(row, c), (mem_rowCells row _).2 rfl, hc⟩ d hd
  · rintro col ⟨r, hc⟩
    exact key _ (Or.inr (Or.inl ⟨col, rfl⟩)) ⟨(r, col), (mem_colCells col _).2 rfl, hc⟩ d hd
  · rintro row col ⟨i, j, hc⟩
    refine key _ (Or.inr (Or.inr ⟨row, col, rfl⟩))
      ⟨(boxIndex row i, boxIndex col j), ?_, hc⟩ d hd
    exact List.mem_map.2 ⟨(i, j), mem_pairs3 _, rfl⟩

theorem solve_true_touched_units_witness :
    inRange oneMissing ∧ ∃ p1 t, solve oneMissing = some (true, p1, t) ∧
      (∀ r c, oneMissing r c ≠ 0 → p1 r c = oneMissing r c) ∧
      (rowVals p1 0).count 5 = 1 := by
  have hd : (solve oneMissing).map (fun o => o.1) = some true := by decide
  cases h : solve oneMissing with
  | none => rw [h] at hd; simp at hd
  | some o =>
    obtain ⟨b, p1, t⟩ := o
    rw [h] at hd
    simp only [Option.map_some', Option.some.injEq] at hd
    subst hd
    have hw := solve_true_touched_units oneMissing p1 t (by decide) h
    exact ⟨by decide, p1, t, rfl, hw.2.1, (hw.2.2 5 (by decide)).1 0 ⟨0, by decide⟩⟩

/-- Claim C7 fails as stated: the grid whose 81 cells hold 1 has entries in
`0..9`, `solve` returns `true` on it at once and leaves it unchanged, and its
rows, columns and boxes hold nine 1s each. -/
theorem solve_true_allOnes_not_valid :
    inRange allOnes ∧ solve allOnes = some (true, allOnes, []) ∧ ¬ fullyValid allOnes :=
  ⟨by decide, solve_of_full allOnes (by decide), by decide⟩

/-- Claim C9. For every 9×9 grid that has at least one legal completion
(hence rule-consistent with entries in `0..9`), `solve` returns `true`, the
grid `s` it leaves is a legal completion of the input, and for every other
legal completion `s1` of the input, at the first cell in row-major order where
`s` and `s1` differ the digit of `s` is smaller than the digit of `s1`. -/
theorem solve_lex_first (p s0 : puzzle) (h0 : completes s0 p) :
    ∃ s t, solve p = some (true, s, t) ∧ completes s p ∧
      ∀ s1, completes s1 p → s1 ≠ s →
        ∃ r c, s r c < s1 r c ∧ ∀ r1 c1, before r1 c1 r c → s r1 c1 = s1 r1 c1 := by
  obtain ⟨s, t, h⟩ := solveFuel_complete 82 p (by have := emptyCount_le p; omega) s0 h0
  obtain ⟨hc, hr⟩ := completes_props s0 p h0
  exact ⟨s, t, h, solveFuel_sound 82 p s t h hc hr, solveFuel_lex 82 p s t h⟩

theorem solve_lex_first_witness :
    completes solvedGrid twoWays ∧
      ∃ s t, solve twoWays = some (true, s, t) ∧ completes s twoWays ∧
        ∀ s1, completes s1 twoWays → s1 ≠ s →
          ∃ r c, s r c < s1 r c ∧ ∀ r1 c1, before r1 c1 r c → s r1 c1 = s1 r1 c1 :=
  ⟨by decide, solve_lex_first twoWays solvedGrid (by decide)⟩

/-- Claim C10. For every 9×9 grid in which every row, column and 3×3 box
contains each digit `1..9` exactly once, `solve` returns `true`, leaves every
cell unchanged and performs no event at all (no store, no hook call);
consequently `solve` on the grid left by any successful `solve` returns `true`
and changes nothing. -/
theorem solve_idempotent (p : puzzle) :
    (fullyValid p → solve p = some (true, p, [])) ∧
    (∀ p1 t, solve p = some (true, p1, t) → solve p1 = some (true, p1, [])) := by
  constructor
  · intro h
    exact solve_of_full p (fun r c => digits_ne_zero _ ((fullyValid_props p h).2 r c))
  · intro p1 t h
    exact solve_of_full p1 (solveFuel_true_full 82 p p1 t h)

theorem solve_idempotent_witness :
    fullyValid solvedGrid ∧ solve solvedGrid = some (true, solvedGrid, []) :=
  ⟨by decide, (solve_idempotent solvedGrid).1 (by decide)⟩

/-! ## Hook calls and stores -/

theorem follows_of_not_write (e e1 : Event) (h : e.isWrite = false) (h1 : e1.isHook = false) :
    Follows e e1 := by
  cases e with
  | write r c v => simp [Event.isWrite] at h
  | wasmUpdateDOM q r c => exact h1
  | solve q => exact h1

theorem follows_trial (p : puzzle) (row col : Fin 9) (v : Int) (hv : v ≠ 0) :
    Follows (Event.write row col v) (Event.wasmUpdateDOM (p.set row col v) row col) := by
  simp only [Follows, hv, if_false]
  exact ⟨_, set_same _ _ _ _, rfl⟩

theorem follows_reset_trial (row col : Fin 9) (v : Int) (hv : v ≠ 0) :
    Follows (Event.write row col 0) (Event.write row col v) := by
  simp only [Follows, if_true]
  exact Or.inl ⟨v, hv, rfl⟩

theorem follows_reset_hook (p : puzzle) (row col : Fin 9) (hp : p row col = 0) :
    Follows (Event.write row col 0) (Event.wasmUpdateDOM p row col) := by
  simp only [Follows, if_true]
  exact Or.inr ⟨p, hp, rfl⟩

/-- The events of one trial obey the hook discipline and start with the trial store. -/
theorem trialTrace_disciplined (rec : puzzle → Option Outcome) (p : puzzle) (row col : Fin 9)
    (v : Int) (hv : v ≠ 0)
    (hrec : ∀ o, rec (p.set row col v) = some o → Disciplined o.2.2) :
    List.Chain' Follows (trialTrace rec p row col v) ∧
      (trialTrace rec p row col v).head? = some (Event.write row col v) ∧
      (∀ e, (trialTrace rec p row col v).getLast? = some e → e.isWrite = false) ∧
      hookCount (trialTrace rec p row col v) ≤ writeCount (trialTrace rec p row col v) := by
  unfold trialTrace
  by_cases hval : validate (p.set row col v) row col = true
  · simp only [hval, if_true]
    cases hr : rec (p.set row col v) with
    | none =>
      refine ⟨?_, rfl, ?_, ?_⟩
      · simp only [List.cons_append, List.nil_append, List.chain'_cons, List.chain'_singleton,
          and_true]
        exact ⟨follows_trial p row col v hv, rfl⟩
      · intro e he
        simp at he
        subst he; rfl
      · simp [hookCount, writeCount, Event.isHook, Event.isWrite]
    | some o =>
      obtain ⟨hch, hhd, hlast, hcnt⟩ := hrec o hr
      simp only [List.cons_append, List.nil_append]
      refine ⟨?_, rfl, ?_, ?_⟩
      · rw [List.chain'_cons, List.chain'_cons]
        refine ⟨follows_trial p row col v hv, rfl, ?_⟩
        exact hch.cons' (fun y hy => hhd y hy)
      · intro e he
        cases hrt : o.2.2 with
        | nil =>
          simp only [hrt, List.getLast?_cons_cons, List.getLast?_singleton,
            Option.some.injEq] at he
          subst he; rfl
        | cons a rt =>
          simp only [hrt, List.getLast?_cons_cons] at he
          exact hlast e (by rw [hrt]; exact he)
      · simp only [hookCount, writeCount, List.countP_cons, Event.isHook, Event.isWrite] at hcnt ⊢
        simp only [Bool.false_eq_true, if_false, if_true]
        omega
  · have hval' : validate (p.set row col v) row col = false := by simpa using hval
    simp only [hval', Bool.false_eq_true, if_false, List.append_nil]
    refine ⟨?_, rfl, ?_, ?_⟩
    · rw [List.chain'_cons]
      exact ⟨follows_trial p row col v hv, List.chain'_singleton _⟩
    · intro e he
      simp at he
      subst he; rfl
    · simp [hookCount, writeCount, Event.isHook, Event.isWrite]

/-- The events of a failed trial with its reset: as a trial, ending on the reset. -/
theorem failedTrace_disciplined (rec : puzzle → Option Outcome) (p : puzzle) (row col : Fin 9)
    (v : Int) (hv : v ≠ 0)
    (hrec : ∀ o, rec (p.set row col v) = some o → Disciplined o.2.2) :
    List.Chain' Follows (failedTrace rec p row col v) ∧
      (failedTrace rec p row col v).head? = some (Event.write row col v) ∧
      (failedTrace rec p row col v).getLast? = some (Event.write row col 0) ∧
      hookCount (failedTrace rec p row col v) + 1 ≤ writeCount (failedTrace rec p row col v) := by
  obtain ⟨hch, hhd, hlast, hcnt⟩ := trialTrace_disciplined rec p row col v hv hrec
  unfold failedTrace
  refine ⟨?_, ?_, List.getLast?_concat _, ?_⟩
  · rw [List.chain'_append]
    refine ⟨hch, List.chain'_singleton _, ?_⟩
    intro x hx y hy
    simp only [List.head?_cons, Option.mem_def, Option.some.injEq] at hy
    subst hy
    exact follows_of_not_write x _ (hlast x hx) rfl
  · rw [List.head?_append, hhd]; rfl
  · simp only [hookCount, writeCount, List.countP_append, List.countP_cons, List.countP_nil,
      Event.isHook, Event.isWrite] at hcnt ⊢
    simp only [Bool.false_eq_true, if_false, if_true]
    omega

/-- The events of a run of failed trials at one cell. -/
theorem failedTraces_disciplined (rec : puzzle → Option Outcome) (p : puzzle) (row col : Fin 9)
    (hrec : ∀ q o, rec q = some o → Disciplined o.2.2) :
    ∀ vals : List Int, (∀ v ∈ vals, v ≠ 0) →
      List.Chain' Follows (vals.flatMap (failedTrace rec p row col)) ∧
      (∀ e, (vals.flatMap (failedTrace rec p row col)).head? = some e →
        ∃ v, v ≠ 0 ∧ e = Event.write row col v) ∧
      (vals ≠ [] →
        (vals.flatMap (failedTrace rec p row col)).getLast? = some (Event.write row col 0)) ∧
      hookCount (vals.flatMap (failedTrace rec p row col)) + vals.length ≤
        writeCount (vals.flatMap (failedTrace rec p row col)) := by
  intro vals
  induction vals with
  | nil =>
    intro _
    refine ⟨List.chain'_nil, ?_, ?_, ?_⟩
    · intro e he; simp at he
    · intro h; exact absurd rfl h
    · simp [hookCount, writeCount]
  | cons v vs ih =>
    intro hne
    have hv : v ≠ 0 := hne v (List.mem_cons_self _ _)
    obtain ⟨ich, ihd, ilast, icnt⟩ := ih (fun u hu => hne u (List.mem_cons_of_mem _ hu))
    obtain ⟨fch, fhd, flast, fcnt⟩ :=
      failedTrace_disciplined rec p row col v hv (fun o ho => hrec _ o ho)
    rw [List.flatMap_cons]
    refine ⟨?_, ?_, ?_, ?_⟩
    · rw [List.chain'_append]
      refine ⟨fch, ich, ?_⟩
      intro x hx y hy
      rw [Option.mem_def, flast] at hx
      simp only [Option.some.injEq] at hx
      subst hx
      obtain ⟨w, hw, rfl⟩ := ihd y hy
      exact follows_reset_trial row col w hw
    · intro e he
      rw [List.head?_append, fhd] at he
      simp only [Option.or_some, Option.some.injEq] at he
      exact ⟨v, hv, he.symm⟩
    · intro _
      rw [List.getLast?_append]
      by_cases hvs : vs = []
      · subst hvs
        simp only [List.flatMap_nil, List.getLast?_nil, Option.none_or]
        exact flast
      · rw [ilast hvs]; rfl
    · simp only [hookCount, writeCount, List.countP_append, List.length_cons] at icnt fcnt ⊢
      omega

/-- The events of every call obey the hook discipline. -/
theorem solveFuel_disciplined : ∀ (n : Nat) (p : puzzle) (o : Outcome),
    solveFuel n p = some o → Disciplined o.2.2 := by
  intro n
  induction n with
  | zero => intro p o h; simp [solveFuel] at h
  | succ n ih =>
    intro p o h
    obtain ⟨b, p1, t⟩ := o
    simp only
    rcases solveFuel_cases n p b p1 t h with ⟨_, _, _, rfl⟩ | ⟨row, col, hfe, hc⟩
    · refine ⟨List.chain'_nil, ?_, ?_, ?_⟩
      · intro e he; simp at he
      · intro e he; simp at he
      · simp [hookCount, writeCount]
    · rcases hc with ⟨_, _, _, rfl⟩ | ⟨_, pre, v, post, hd, _, _, _, rfl⟩
      · obtain ⟨lch, lhd, llast, lcnt⟩ := failedTraces_disciplined (solveFuel n) p row col ih
          digits digits_ne_zero
        have hlast := llast (by decide)
        refine ⟨?_, ?_, ?_, ?_⟩
        · rw [List.chain'_append]
          refine ⟨lch, List.chain'_singleton _, ?_⟩
          intro x hx y hy
          rw [Option.mem_def, hlast] at hx
          simp only [Option.some.injEq] at hx
          subst hx
          simp only [List.head?_cons, Option.mem_def, Option.some.injEq] at hy
          subst hy
          exact follows_reset_hook p row col hfe.1
        · intro e he
          rw [List.head?_append] at he
          cases hh : (digits.flatMap (failedTrace (solveFuel n) p row col)).head? with
          | none =>
            rw [List.head?_eq_none_iff] at hh
            rw [hh] at hlast
            simp at hlast
          | some e1 =>
            rw [hh] at he
            simp only [Option.or_some, Option.some.injEq] at he
            subst he
            obtain ⟨w, _, rfl⟩ := lhd _ hh
            rfl
        · intro e he
          rw [List.getLast?_concat] at he
          simp only [Option.some.injEq] at he
          subst he; rfl
        · have hl : digits.length = 9 := rfl
          rw [hl] at lcnt
          simp only [hookCount, writeCount, List.countP_append, List.countP_cons,
            List.countP_nil, Event.isHook, Event.isWrite] at lcnt ⊢
          simp only [Bool.false_eq_true, if_false, if_true]
          omega
      · have hv : v ∈ digits := by rw [hd]; simp
        have hpre : ∀ u ∈ pre, u ≠ 0 := fun u hu =>
          digits_ne_zero u (by rw [hd]; exact List.mem_append_left _ hu)
        obtain ⟨lch, lhd, llast, lcnt⟩ :=
          failedTraces_disciplined (solveFuel n) p row col ih pre hpre
        obtain ⟨tch, thd, tlast, tcnt⟩ := trialTrace_disciplined (solveFuel n) p row col v
          (digits_ne_zero v hv) (fun o ho => ih _ o ho)
        refine ⟨?_, ?_, ?_, ?_⟩
        · rw [List.chain'_append]
          refine ⟨lch, tch, ?_⟩
          intro x hx y hy
          rw [Option.mem_def, thd] at hy
          simp only [Option.some.injEq] at hy
          subst hy
          by_cases hp : pre = []
          · subst hp; simp at hx
          · rw [Option.mem_def, llast hp] at hx
            simp only [Option.some.injEq] at hx
            subst hx
            exact follows_reset_trial row col v (digits_ne_zero v hv)
        · intro e he
          rw [List.head?_append, thd] at he
          cases hh : (pre.flatMap (failedTrace (solveFuel n) p row col)).head? with
          | none =>
            rw [hh] at he
            simp only [Option.none_or, Option.some.injEq] at he
            subst he; rfl
          | some e1 =>
            rw [hh] at he
            simp only [Option.or_some, Option.some.injEq] at he
            subst he
            obtain ⟨w, _, rfl⟩ := lhd _ hh
            rfl
        · intro e he
          rw [List.getLast?_append] at he
          cases hh : (trialTrace (solveFuel n) p row col v).getLast? with
          | none =>
            have : (trialTrace (solveFuel n) p row col v).head? = none := by
              rw [List.getLast?_eq_none_iff] at hh
              rw [hh]; rfl
            rw [thd] at this
            exact absurd this (by simp)
          | some e1 =>
            rw [hh] at he
            simp only [Option.or_some, Option.some.injEq] at he
            subst he
            exact tlast _ hh
        · simp only [hookCount, writeCount, List.countP_append] at lcnt tcnt ⊢
          omega

/-- Claim C8, as the code has it. During any `solve` call, every trial store
of a digit `1..9` is immediately followed by one hook call for that cell, made
on the puzzle holding the digit; a reset to 0 is immediately followed either
by the next trial store to the same cell, with no hook call in between, or by
one hook call for that cell, made on the puzzle holding 0; a hook call comes
only directly after a store (never first, never after a hook call or a
recursive call) and the last event is never a store; so the number of hook
calls is at most the number of stores. -/
theorem solve_hook_discipline (p : puzzle) (b : Bool) (p1 : puzzle) (t : List Event)
    (h : solve p = some (b, p1, t)) :
    List.Chain' Follows t ∧ (∀ e, t.head? = some e → e.isHook = false) ∧
      (∀ e, t.getLast? = some e → e.isWrite = false) ∧ hookCount t ≤ writeCount t :=
  solveFuel_disciplined 82 p (b, p1, t) h

theorem solve_hook_discipline_witness :
    ∃ b p1 t, solve deadEnd = some (b, p1, t) ∧ List.Chain' Follows t ∧
      hookCount t ≤ writeCount t := by
  obtain ⟨o, ho⟩ := solve_total deadEnd
  obtain ⟨b, p1, t⟩ := o
  have hd := solve_hook_discipline deadEnd b p1 t ho
  exact ⟨b, p1, t, ho, hd.1, hd.2.2.2⟩

/-- Claim C8 fails as stated: on the grid `deadEnd` the call performs 18
stores and 10 hook calls, and its third event, the reset after the trial of 1,
is directly followed by the next trial store, not by a hook call. -/
theorem solve_deadEnd_reset_not_hooked :
    ∃ p1 t, solve deadEnd = some (false, p1, t) ∧ writeCount t = 18 ∧ hookCount t = 10 ∧
      (t.map Event.isWrite).take 4 = [true, false, true, true] ∧
      (t.map Event.isHook).take 4 = [false, true, false, false] := by
  have hd : (solve deadEnd).map (fun o => (o.1, writeCount o.2.2, hookCount o.2.2,
      (o.2.2.map Event.isWrite).take 4, (o.2.2.map Event.isHook).take 4)) =
      some (false, 18, 10, [true, false, true, true], [false, true, false, false]) := by
    decide
  cases h : solve deadEnd with
  | none => rw [h] at hd; simp at hd
  | some o =>
    obtain ⟨b, p1, t⟩ := o
    rw [h] at hd
    simp only [Option.map_some', Option.some.injEq, Prod.mk.injEq] at hd
    obtain ⟨rfl, h1, h2, h3, h4⟩ := hd
    exact ⟨p1, t, rfl, h1, h2, h3, h4⟩

/-! ## Termination -/

/-- Two recursive calls that agree on the puzzles of the trials give the same
trial loop, when the first restores the puzzle on failure. -/
theorem valLoop_congr (rec rec1 : puzzle → Option Outcome) (hrec : Restores rec)
    (row col : Fin 9) (p : puzzle) (hp : p row col = 0) :
    ∀ vals : List Int, (∀ v ∈ vals, rec1 (p.set row col v) = rec (p.set row col v)) →
      valLoop rec1 row col vals p = valLoop rec row col vals p := by
  intro vals
  induction vals with
  | nil => intro _; rfl
  | cons v vs ih =>
    intro h
    have ih1 := ih (fun u hu => h u (List.mem_cons_of_mem _ hu))
    have hv := h v (List.mem_cons_self _ _)
    simp only [valLoop, hv, set_reset p row col v hp]
    by_cases hval : validate (p.set row col v) row col = true
    · simp only [hval, if_true]
      cases hr : rec (p.set row col v) with
      | none => rfl
      | some o =>
        obtain ⟨b, p2, t2⟩ := o
        cases b with
        | true => rfl
        | false =>
          have hp2 : p2 = p.set row col v := hrec _ _ _ _ hr rfl
          subst hp2
          simp only [set_reset p row col v hp, ih1]
    · have hval1 : validate (p.set row col v) row col = false := by simpa using hval
      simp only [hval1, Bool.false_eq_true, if_false, ih1]

/-- The recursion on the number of empty cells computes what the budgeted
recursion computes, as soon as the budget exceeds the number of empty cells. -/
theorem solveWF_eq_solveFuel : ∀ (n : Nat) (p : puzzle), emptyCount p < n →
    solveWF p = solveFuel n p := by
  intro n
  induction n with
  | zero => intro p h; omega
  | succ n ih =>
    intro p hn
    rw [solveWF]
    have e : solveFuel (n + 1) p = solveBody (solveFuel n) p := rfl
    rw [e]
    rcases full_or_firstEmpty p with hfull | ⟨row, col, hfe⟩
    · rw [solveBody_full _ _ hfull, solveBody_full _ _ hfull]
    · rw [solveBody_frame _ _ _ _ hfe, solveBody_frame _ _ _ _ hfe]
      unfold frame
      rw [valLoop_congr (solveFuel n) _ (solveFuel_restores n) row col p hfe.1 digits]
      intro v hv
      have hlt := emptyCount_set p row col v hfe.1 (digits_ne_zero v hv)
      have h1 : emptyCount (p.set row col v) < emptyCount p := by omega
      simp only [h1, dif_pos]
      exact ih _ (by omega)

/-- Where an event of a trial comes from: the trial store, the hook call after
it, or, when the validator accepts the value, the recursive call or one of
its events. -/
theorem mem_trialTrace_cases (rec : puzzle → Option Outcome) (p : puzzle) (row col : Fin 9)
    (v : Int) (e : Event) (h : e ∈ trialTrace rec p row col v) :
    e = Event.write row col v ∨ e = Event.wasmUpdateDOM (p.set row col v) row col ∨
      (validate (p.set row col v) row col = true ∧
        (e = Event.solve (p.set row col v) ∨
          ∃ o, rec (p.set row col v) = some o ∧ e ∈ o.2.2)) := by
  by_cases hval : validate (p.set row col v) row col = true
  · rcases mem_trialTrace rec p row col v e h with h1 | h1 | h1 | h1
    · exact Or.inl h1
    · exact Or.inr (Or.inl h1)
    · exact Or.inr (Or.inr ⟨hval, Or.inl h1⟩)
    · exact Or.inr (Or.inr ⟨hval, Or.inr h1⟩)
  · have hval1 : validate (p.set row col v) row col = false := by simpa using hval
    unfold trialTrace at h
    simp only [hval1, Bool.false_eq_true, if_false, List.append_nil, List.mem_cons,
      List.mem_singleton, List.not_mem_nil, or_false] at h
    rcases h with h1 | h1
    · exact Or.inl h1
    · exact Or.inr (Or.inl h1)

/-- Where an event of an activation comes from: the activation works at the
first empty cell, and the event is the reset of that cell, the final hook call
on the restored puzzle, or an event of the trial of some digit. -/
theorem mem_trace_cases (n : Nat) (p : puzzle) (b : Bool) (p1 : puzzle) (t : List Event)
    (h : solveFuel (n + 1) p = some (b, p1, t)) (e : Event) (he : e ∈ t) :
    ∃ row col, FirstEmpty p row col ∧
      (e = Event.write row col 0 ∨ e = Event.wasmUpdateDOM p row col ∨
        ∃ v ∈ digits, e ∈ trialTrace (solveFuel n) p row col v) := by
  rcases solveFuel_cases n p b p1 t h with ⟨_, _, _, rfl⟩ | ⟨row, col, hfe, hc⟩
  · simp at he
  · refine ⟨row, col, hfe, ?_⟩
    have hfl : ∀ vals : List Int, (∀ v ∈ vals, v ∈ digits) →
        e ∈ vals.flatMap (failedTrace (solveFuel n) p row col) →
        e = Event.write row col 0 ∨ e = Event.wasmUpdateDOM p row col ∨
          ∃ v ∈ digits, e ∈ trialTrace (solveFuel n) p row col v := by
      intro vals hsub hmem
      obtain ⟨u, hu, hue⟩ := List.mem_flatMap.1 hmem
      unfold failedTrace at hue
      rcases List.mem_append.1 hue with h1 | h1
      · exact Or.inr (Or.inr ⟨u, hsub u hu, h1⟩)
      · exact Or.inl (List.mem_singleton.1 h1)
    rcases hc with ⟨_, _, _, rfl⟩ | ⟨_, pre, v, post, hd, _, _, _, rfl⟩
    · rcases List.mem_append.1 he with h1 | h1
      · exact hfl digits (fun _ hv => hv) h1
      · exact Or.inr (Or.inl (List.mem_singleton.1 h1))
    · rcases List.mem_append.1 he with h1 | h1
      · exact hfl pre (fun u hu => by rw [hd]; exact List.mem_append_left _ hu) h1
      · exact Or.inr (Or.inr ⟨v, by rw [hd]; simp, h1⟩)

/-- Every recursive call of an activation, nested calls included, is entered on
a puzzle with strictly fewer empty cells than the puzzle of the activation. -/
theorem solveFuel_calls_decrease : ∀ (n : Nat) (p : puzzle) (o : Outcome),
    solveFuel n p = some o → ∀ q, Event.solve q ∈ o.2.2 → emptyCount q < emptyCount p := by
  intro n
  induction n with
  | zero => intro p o h; simp [solveFuel] at h
  | succ n ih =>
    intro p o h q hq
    obtain ⟨b, p1, t⟩ := o
    simp only at hq
    obtain ⟨row, col, hfe, hc⟩ := mem_trace_cases n p b p1 t h _ hq
    rcases hc with h1 | h1 | ⟨v, hv, h1⟩
    · simp at h1
    · simp at h1
    · have hlt := emptyCount_set p row col v hfe.1 (digits_ne_zero v hv)
      rcases mem_trialTrace_cases _ _ _ _ _ _ h1 with h2 | h2 | ⟨_, h2 | ⟨o, ho, h2⟩⟩
      · simp at h2
      · simp at h2
      · simp only [Event.solve.injEq] at h2
        subst h2
        omega
      · have := ih _ o ho q h2
        omega

/-- Claim C11. For every 9×9 integer grid `solve` terminates: it returns an
outcome.  Every recursive call, nested calls included, is made on a grid with
strictly fewer zero cells than the grid of the call it is made from, and the
method defined by well-founded recursion on the number of zero cells, without
depth budget, computes the same outcome. -/
theorem solve_terminates (p : puzzle) :
    (∃ o, solve p = some o) ∧ solveWF p = solve p ∧
      ∀ b p1 t, solve p = some (b, p1, t) →
        ∀ q, Event.solve q ∈ t → emptyCount q < emptyCount p :=
  have hlt : emptyCount p < 82 := Nat.lt_succ_of_le (emptyCount_le p)
  ⟨solveFuel_total 82 p hlt, solveWF_eq_solveFuel 82 p hlt,
    fun b p1 t h q hq => solveFuel_calls_decrease 82 p (b, p1, t) h q hq⟩

/-! ## Concrete scenarios -/

/-- Claim C12. On the 9×9 grid whose 81 cells are all 0, `solve` returns
`true` and leaves a grid in which every row, column and 3×3 box contains each
digit `1..9` exactly once. -/
theorem solve_emptyGrid :
    ∃ p1 t, solve emptyGrid = some (true, p1, t) ∧ fullyValid p1 := by
  have hs : completes solvedGrid emptyGrid :=
    ⟨fun r c h => absurd rfl h, by decide⟩
  obtain ⟨p1, t, h⟩ := solveFuel_complete 82 emptyGrid
    (Nat.lt_succ_of_le (emptyCount_le _)) solvedGrid hs
  obtain ⟨hc, hr⟩ := completes_props solvedGrid emptyGrid hs
  exact ⟨p1, t, h, (solveFuel_sound 82 emptyGrid p1 t h hc hr).2⟩

/-- A fully valid grid is the only legal completion of itself with one cell emptied. -/
theorem completes_oneCell (g s : puzzle) (r c : Fin 9) (hg : fullyValid g)
    (hs : completes s (g.set r c 0)) : s = g := by
  obtain ⟨hgc, hgd⟩ := fullyValid_props g hg
  have hoff : ∀ r1 c1 : Fin 9, ¬ (r1 = r ∧ c1 = c) → s r1 c1 = g r1 c1 := by
    intro r1 c1 hne
    have h := hs.1 r1 c1
    rw [set_other _ _ _ _ _ _ hne] at h
    exact h (digits_ne_zero _ (hgd r1 c1))
  have hcount := (hs.2 (g r c) (hgd r c)).1 r
  have hmem : g r c ∈ rowVals s r := by
    rw [← List.count_pos_iff, hcount]
    exact Nat.one_pos
  unfold rowVals at hmem
  obtain ⟨j, _, hj⟩ := List.mem_map.1 hmem
  have hjc : j = c := by
    by_contra hne
    have hne1 : ¬ (r = r ∧ j = c) := fun h => hne h.2
    rw [hoff r j hne1] at hj
    have hnd := (rowDup_iff g r).1 (hgc.1 r)
    have := hnd (r, j) ((mem_rowCells r _).2 rfl) (r, c) ((mem_rowCells r _).2 rfl)
      (digits_ne_zero _ (hgd r j)) hj
    exact hne (congrArg Prod.snd this)
  subst hjc
  funext r1 c1
  by_cases hrc : r1 = r ∧ c1 = j
  · obtain ⟨rfl, rfl⟩ := hrc
    exact hj
  · exact hoff r1 c1 hrc

/-- Claim C13. For every fully valid grid `g` and every cell `(r, c)`, `solve`
on the grid obtained from `g` by setting cell `(r, c)` to 0 returns `true`,
the resulting grid equals `g`, and every store of the call goes to `(r, c)`. -/
theorem solve_oneCell (g : puzzle) (r c : Fin 9) (hg : fullyValid g) :
    ∃ t, solve (g.set r c 0) = some (true, g, t) ∧
      ∀ r1 c1 v, Event.write r1 c1 v ∈ t → r1 = r ∧ c1 = c := by
  obtain ⟨_, hgd⟩ := fullyValid_props g hg
  have hs : completes g (g.set r c 0) := by
    refine ⟨?_, hg⟩
    intro r1 c1 h
    by_cases hrc : r1 = r ∧ c1 = c
    · obtain ⟨rfl, rfl⟩ := hrc
      rw [set_same] at h
      exact absurd rfl h
    · rw [set_other _ _ _ _ _ _ hrc]
  obtain ⟨p1, t, h⟩ := solveFuel_complete 82 (g.set r c 0)
    (Nat.lt_succ_of_le (emptyCount_le _)) g hs
  obtain ⟨hc, hr⟩ := completes_props g _ hs
  have hp1 : p1 = g := completes_oneCell g p1 r c hg (solveFuel_sound 82 _ p1 t h hc hr)
  subst hp1
  refine ⟨t, h, ?_⟩
  intro r1 c1 v hw
  have h0 := solveFuel_writes 82 _ _ h r1 c1 v hw
  by_contra hne
  rw [set_other _ _ _ _ _ _ hne] at h0
  exact digits_ne_zero _ (hgd r1 c1) h0

theorem solve_oneCell_witness :
    fullyValid solvedGrid ∧ ∃ t, solve (solvedGrid.set 4 4 0) = some (true, solvedGrid, t) ∧
      ∀ r1 c1 v, Event.write r1 c1 v ∈ t → r1 = 4 ∧ c1 = 4 :=
  ⟨by decide, solve_oneCell solvedGrid 4 4 (by decide)⟩

/-! ## What the hook observes -/

/-- The first empty cell is unique. -/
theorem firstEmpty_unique (p : puzzle) (r c r1 c1 : Fin 9) (h : FirstEmpty p r c)
    (h1 : FirstEmpty p r1 c1) : r = r1 ∧ c = c1 := by
  rcases lt_trichotomy r r1 with hlt | heq | hgt
  · exact absurd h.1 (h1.2 r c (Or.inl hlt))
  · subst heq
    rcases lt_trichotomy c c1 with hlt | heq | hgt
    · exact absurd h.1 (h1.2 r c (Or.inr ⟨rfl, hlt⟩))
    · exact ⟨rfl, heq⟩
    · exact absurd h1.1 (h.2 r c1 (Or.inr ⟨rfl, hgt⟩))
  · exact absurd h1.1 (h.2 r1 c1 (Or.inl hgt))

/-- Every hook call of an activation, nested calls included, is for a cell that
is empty when the activation is entered. -/
theorem solveFuel_hooks : ∀ (n : Nat) (p : puzzle) (o : Outcome),
    solveFuel n p = some o → ∀ q r c, Event.wasmUpdateDOM q r c ∈ o.2.2 → p r c = 0 := by
  intro n
  induction n with
  | zero => intro p o h; simp [solveFuel] at h
  | succ n ih =>
    intro p o h q r c hq
    obtain ⟨b, p1, t⟩ := o
    simp only at hq
    obtain ⟨row, col, hfe, hc⟩ := mem_trace_cases n p b p1 t h _ hq
    rcases hc with h1 | h1 | ⟨v, hv, h1⟩
    · simp at h1
    · simp only [Event.wasmUpdateDOM.injEq] at h1
      rw [h1.2.1, h1.2.2]; exact hfe.1
    · rcases mem_trialTrace_cases _ _ _ _ _ _ h1 with h2 | h2 | ⟨_, h2 | ⟨o, ho, h2⟩⟩
      · simp at h2
      · simp only [Event.wasmUpdateDOM.injEq] at h2
        rw [h2.2.1, h2.2.2]; exact hfe.1
      · simp at h2
      · have h0 := ih _ o ho q r c h2
        by_cases hne : r = row ∧ c = col
        · rw [hne.1, hne.2]; exact hfe.1
        · rwa [set_other _ _ _ _ _ _ hne] at h0

/-- The hook calls of a failed trial of a nonzero value `v` show exactly `v`
for the cell of the trial. -/
theorem hookValuesAt_failedTrace (rec : puzzle → Option Outcome) (p : puzzle) (row col : Fin 9)
    (v : Int) (hv : v ≠ 0)
    (hrec : ∀ q o, rec q = some o → ∀ q1 r c, Event.wasmUpdateDOM q1 r c ∈ o.2.2 → q r c = 0) :
    hookValuesAt row col (failedTrace rec p row col v) = [v] := by
  have hrest : ∀ o, rec (p.set row col v) = some o → hookValuesAt row col o.2.2 = [] := by
    intro o ho
    unfold hookValuesAt
    rw [List.filterMap_eq_nil_iff]
    intro e he
    cases e with
    | write r c w => rfl
    | solve q => rfl
    | wasmUpdateDOM q1 r c =>
      have h0 := hrec _ o ho q1 r c he
      have hne : ¬ (r = row ∧ c = col) := by
        rintro ⟨rfl, rfl⟩
        rw [set_same] at h0
        exact hv h0
      simp [hookValueAt, hne]
  unfold failedTrace trialTrace
  by_cases hval : validate (p.set row col v) row col = true
  · cases hr : rec (p.set row col v) with
    | none => simp [hookValuesAt, hookValueAt, hval, hr, set_same]
    | some o =>
      have := hrest o hr
      unfold hookValuesAt at this
      simp [hookValuesAt, hookValueAt, hval, hr, set_same, this]
  · have hval1 : validate (p.set row col v) row col = false := by simpa using hval
    simp [hookValuesAt, hookValueAt, hval1, set_same]

theorem hookValuesAt_failedTraces (rec : puzzle → Option Outcome) (p : puzzle) (row col : Fin 9)
    (hrec : ∀ q o, rec q = some o → ∀ q1 r c, Event.wasmUpdateDOM q1 r c ∈ o.2.2 → q r c = 0) :
    ∀ vals : List Int, (∀ v ∈ vals, v ≠ 0) →
      hookValuesAt row col (vals.flatMap (failedTrace rec p row col)) = vals := by
  intro vals
  induction vals with
  | nil => intro _; rfl
  | cons v vs ih =>
    intro h
    have h1 := hookValuesAt_failedTrace rec p row col v (h v (List.mem_cons_self _ _)) hrec
    have h2 := ih (fun u hu => h u (List.mem_cons_of_mem _ hu))
    unfold hookValuesAt at h1 h2 ⊢
    rw [List.flatMap_cons, List.filterMap_append, h1, h2]
    rfl

/-- Claim C14. For every 9×9 grid with at least one empty cell on which
`solve` returns `false`, the hook calls for the first empty cell in row-major
order are exactly ten and show that cell's value as `1, 2, ..., 9` in
ascending order and then `0`; the hook call showing `0` is the last event of
the whole call, hence its last hook call. -/
theorem solve_false_hook_order (p p1 : puzzle) (t : List Event) (row col : Fin 9)
    (h : solve p = some (false, p1, t)) (hfe : FirstEmpty p row col) :
    hookValuesAt row col t = [1, 2, 3, 4, 5, 6, 7, 8, 9, 0] ∧
      t.getLast? = some (Event.wasmUpdateDOM p1 row col) ∧ p1 row col = 0 := by
  rcases solveFuel_cases 81 p false p1 t h with ⟨_, hb, _⟩ | ⟨row1, col1, hfe1, hc⟩
  · exact absurd hb (by simp)
  · obtain ⟨rfl, rfl⟩ := firstEmpty_unique p row col row1 col1 hfe hfe1
    rcases hc with ⟨_, rfl, _, rfl⟩ | ⟨hb, _⟩
    · refine ⟨?_, List.getLast?_concat _, hfe.1⟩
      have := hookValuesAt_failedTraces (solveFuel 81) p1 row col (solveFuel_hooks 81)
        digits digits_ne_zero
      unfold hookValuesAt at this ⊢
      rw [List.filterMap_append, this]
      simp [hookValueAt, hfe.1, digits]
    · exact absurd hb (by simp)

theorem solve_false_hook_order_witness :
    FirstEmpty deadEnd 0 0 ∧ ∃ p1 t, solve deadEnd = some (false, p1, t) ∧
      hookValuesAt 0 0 t = [1, 2, 3, 4, 5, 6, 7, 8, 9, 0] := by
  have hd : (solve deadEnd).map (fun o => o.1) = some false := by decide
  have hfe : FirstEmpty deadEnd 0 0 := by
    refine ⟨by decide, ?_⟩
    intro r c hlt
    rcases hlt with h1 | ⟨_, h1⟩
    · exact absurd h1 (Nat.not_lt_zero _)
    · exact absurd h1 (Nat.not_lt_zero _)
  cases h : solve deadEnd with
  | none => rw [h] at hd; simp at hd
  | some o =>
    obtain ⟨b, p1, t⟩ := o
    rw [h] at hd
    simp only [Option.map_some', Option.some.injEq] at hd
    subst hd
    exact ⟨hfe, p1, t, rfl, (solve_false_hook_order deadEnd p1 t 0 0 h hfe).1⟩

/-- Writing a value the validator accepts into an empty cell of a
rule-consistent puzzle leaves a rule-consistent puzzle. -/
theorem consistent_set (p : puzzle) (row col : Fin 9) (v : Int) (hc : consistent p)
    (hval : validate (p.set row col v) row col = true) :
    consistent (p.set row col v) := by
  rw [consistent_iff] at hc ⊢
  intro u hu
  by_cases hmem : (row, col) ∈ u
  · have hvu := (validate_units _ _ _).1 hval
    rcases unit_of_mem u hu row col hmem with rfl | rfl | rfl
    · exact hvu.1
    · exact hvu.2.1
    · exact hvu.2.2
  · refine NoDup_congr p _ u ?_ (hc u hu)
    intro x hx
    have hne : ¬ (x.1 = row ∧ x.2 = col) := by
      rintro ⟨h1, h2⟩
      exact hmem (by rw [← h1, ← h2]; exact hx)
    exact set_other _ _ _ _ _ _ hne

/-- From a rule-consistent puzzle, every hook call sees a puzzle that is
rule-consistent once the hooked cell is cleared, and every recursive call is
entered on a rule-consistent puzzle. -/
theorem solveFuel_confined : ∀ (n : Nat) (p : puzzle) (o : Outcome),
    solveFuel n p = some o → consistent p →
    (∀ q r c, Event.wasmUpdateDOM q r c ∈ o.2.2 → consistent (q.set r c 0)) ∧
    (∀ q, Event.solve q ∈ o.2.2 → consistent q) := by
  intro n
  induction n with
  | zero => intro p o h; simp [solveFuel] at h
  | succ n ih =>
    intro p o h hc
    obtain ⟨b, p1, t⟩ := o
    have key : ∀ e ∈ t,
        (∀ q r c, e = Event.wasmUpdateDOM q r c → consistent (q.set r c 0)) ∧
        (∀ q, e = Event.solve q → consistent q) := by
      intro e he
      obtain ⟨row, col, hfe, hcases⟩ := mem_trace_cases n p b p1 t h e he
      rcases hcases with h1 | h1 | ⟨v, hv, h1⟩
      · subst h1
        exact ⟨fun q r c hq => by simp at hq, fun q hq => by simp at hq⟩
      · subst h1
        refine ⟨fun q r c hq => ?_, fun q hq => by simp at hq⟩
        simp only [Event.wasmUpdateDOM.injEq] at hq
        obtain ⟨rfl, rfl, rfl⟩ := hq
        rw [set_self p row col 0 hfe.1]
        exact hc
      · rcases mem_trialTrace_cases _ _ _ _ _ _ h1 with h2 | h2 | ⟨hval, h2 | ⟨o, ho, h2⟩⟩
        · subst h2
          exact ⟨fun q r c hq => by simp at hq, fun q hq => by simp at hq⟩
        · subst h2
          refine ⟨fun q r c hq => ?_, fun q hq => by simp at hq⟩
          simp only [Event.wasmUpdateDOM.injEq] at hq
          obtain ⟨rfl, rfl, rfl⟩ := hq
          rw [set_reset p row col v hfe.1]
          exact hc
        · subst h2
          refine ⟨fun q r c hq => by simp at hq, fun q hq => ?_⟩
          simp only [Event.solve.injEq] at hq
          subst hq
          exact consistent_set p row col v hc hval
        · have hi := ih _ o ho (consistent_set p row col v hc hval)
          exact ⟨fun q r c hq => hi.1 q r c (by rw [← hq]; exact h2),
            fun q hq => hi.2 q (by rw [← hq]; exact h2)⟩
    exact ⟨fun q r c hq => (key _ hq).1 q r c rfl, fun q hq => (key _ hq).2 q rfl⟩

/-- Claim C15. If `solve` is called on a rule-consistent 9×9 grid (entries in
`0..9` or any other integers), then at every hook call during the call the
grid with the hooked cell cleared to 0 is rule-consistent, and every recursive
call of `solve`, nested calls included, is entered on a rule-consistent grid. -/
theorem solve_inconsistency_confined (p : puzzle) (b : Bool) (p1 : puzzle) (t : List Event)
    (hc : consistent p) (h : solve p = some (b, p1, t)) :
    (∀ q r c, Event.wasmUpdateDOM q r c ∈ t → consistent (q.set r c 0)) ∧
    (∀ q, Event.solve q ∈ t → consistent q) :=
  solveFuel_confined 82 p (b, p1, t) h hc

theorem solve_inconsistency_confined_witness :
    consistent oneMissing ∧ inRange oneMissing ∧
      ∃ b p1 t, solve oneMissing = some (b, p1, t) ∧
        (∀ q r c, Event.wasmUpdateDOM q r c ∈ t → consistent (q.set r c 0)) ∧
        (∀ q, Event.solve q ∈ t → consistent q) := by
  have hc : consistent oneMissing := (completes_props solvedGrid oneMissing (by decide)).1
  obtain ⟨o, ho⟩ := solve_total oneMissing
  obtain ⟨b, p1, t⟩ := o
  exact ⟨hc, by decide, b, p1, t, ho,
    solve_inconsistency_confined oneMissing b p1 t hc ho⟩

/-- Claim C16. There are a 9×9 grid with entries in `0..9` and a coordinate
`(row, col)` at which `validate` returns `true` although a row that does not
contain `(row, col)` holds the same nonzero digit in two different cells: the
grid `farDup` at `(0, 8)`, with the two 1s of row 8. -/
theorem validate_is_local :
    ∃ (p : puzzle) (row col r : Fin 9),
      inRange p ∧ validate p row col = true ∧ r ≠ row ∧ rowDup p r ∧ ¬ consistent p := by
  have hdup : rowDup farDup 8 := ⟨0, 4, by decide, by decide, by decide⟩
  exact ⟨farDup, 0, 8, 8, by decide, by decide, by decide, hdup, fun hc => hc.1 8 hdup⟩

theorem display_append (d : puzzle) (t1 t2 : List Event) :
    display d (t1 ++ t2) = display (display d t1) t2 := by
  induction t1 generalizing d with
  | nil => rfl
  | cons e t ih =>
    cases e with
    | write r c v => exact ih d
    | wasmUpdateDOM q r c => exact ih _
    | solve q => exact ih d

/-- After a failed trial at an empty cell the view is the puzzle with the
trial value still in the cell, if it was the puzzle up to that cell before and
the view follows the recursive call. -/
theorem display_failedTrace (rec : puzzle → Option Outcome) (p : puzzle) (row col : Fin 9)
    (v : Int) (hrec : ∀ q b q1 t, rec q = some (b, q1, t) → display q t = q1)
    (hfail : TrialFails rec p row col v) (d : puzzle) (hd : d.set row col 0 = p) :
    display d (failedTrace rec p row col v) = p.set row col v := by
  have hdv : d.set row col ((p.set row col v) row col) = p.set row col v := by
    rw [set_same, ← hd, set_set]
  unfold failedTrace
  rw [display_append]
  have hw : ∀ d1 : puzzle, display d1 [Event.write row col 0] = d1 := fun _ => rfl
  rw [hw]
  unfold trialTrace
  by_cases hval : validate (p.set row col v) row col = true
  · rcases hfail with h1 | ⟨t2, h1⟩
    · rw [hval] at h1; exact absurd h1 (by simp)
    · simp only [hval, if_true, h1]
      show display (d.set row col ((p.set row col v) row col)) t2 = p.set row col v
      rw [hdv]
      exact hrec _ _ _ _ h1
  · have hval1 : validate (p.set row col v) row col = false := by simpa using hval
    simp only [hval1, Bool.false_eq_true, if_false, List.append_nil]
    show d.set row col ((p.set row col v) row col) = p.set row col v
    exact hdv

theorem display_failedTraces (rec : puzzle → Option Outcome) (p : puzzle) (row col : Fin 9)
    (hp : p row col = 0)
    (hrec : ∀ q b q1 t, rec q = some (b, q1, t) → display q t = q1) :
    ∀ (vals : List Int), (∀ v ∈ vals, TrialFails rec p row col v) →
      ∀ d : puzzle, d.set row col 0 = p →
        (display d (vals.flatMap (failedTrace rec p row col))).set row col 0 = p := by
  intro vals
  induction vals with
  | nil => intro _ d hd; exact hd
  | cons v vs ih =>
    intro hfail d hd
    rw [List.flatMap_cons, display_append,
      display_failedTrace rec p row col v hrec (hfail v (List.mem_cons_self _ _)) d hd]
    exact ih (fun u hu => hfail u (List.mem_cons_of_mem _ hu)) _ (set_reset p row col v hp)

/-- The view that starts as the puzzle of a call and follows its hook calls
ends as the puzzle the call leaves. -/
theorem solveFuel_display : ∀ (n : Nat) (p : puzzle) (b : Bool) (p1 : puzzle) (t : List Event),
    solveFuel n p = some (b, p1, t) → display p t = p1 := by
  intro n
  induction n with
  | zero => intro p b p1 t h; simp [solveFuel] at h
  | succ n ih =>
    intro p b p1 t h
    rcases solveFuel_cases n p b p1 t h with ⟨_, _, rfl, rfl⟩ | ⟨row, col, hfe, hc⟩
    · rfl
    · have hpp : p.set row col 0 = p := set_self p row col 0 hfe.1
      rcases hc with ⟨_, rfl, hfail, rfl⟩ | ⟨_, pre, v, post, _, hfail, hval, ⟨t1, ht1⟩, rfl⟩
      · rw [display_append]
        have := display_failedTraces (solveFuel n) p1 row col hfe.1 ih digits hfail p1 hpp
        show (display p1 _).set row col (p1 row col) = p1
        rw [hfe.1]
        exact this
      · rw [display_append]
        have hd := display_failedTraces (solveFuel n) p row col hfe.1 ih pre hfail p hpp
        unfold trialTrace
        simp only [hval, if_true, ht1]
        show display ((display p _).set row col ((p.set row col v) row col)) t1 = p1
        rw [set_same, ← set_set _ row col 0 v, hd]
        exact ih _ _ _ _ ht1

/-- Claim C17. Let the view start equal to the input grid and record, at each
hook call for `(row, col)`, the value the grid holds at `(row, col)` at that
moment.  Then for every 9×9 grid, when `solve` returns, with `true` or with
`false`, the view equals the grid in every cell. -/
theorem solve_display_in_sync (p : puzzle) (b : Bool) (p1 : puzzle) (t : List Event)
    (h : solve p = some (b, p1, t)) : display p t = p1 :=
  solveFuel_display 82 p b p1 t h

theorem solve_display_in_sync_witness :
    ∃ b p1 t, solve twoWays = some (b, p1, t) ∧ display twoWays t = p1 := by
  obtain ⟨o, ho⟩ := solve_total twoWays
  obtain ⟨b, p1, t⟩ := o
  exact ⟨b, p1, t, ho, solve_display_in_sync twoWays b p1 t ho⟩

end Sudoku
